import Mathlib

/-!
Verification of the binary codec core of the omim map-data subsystem:
the turn-restriction codec (`indexer/routing.hpp`) and the traffic
keys/values codecs (`traffic/traffic_info.cpp`).

The C++ sources are shallowly embedded over `Nat` and `List`.  Machine
integers are modelled as `Nat` with explicit `% 2^32` (resp. `% 2^16`,
`% 256`) at every place where the C++ performs a 32-bit (16-bit, 8-bit)
truncation or wrap-around; `size_t`/`uint64_t` quantities, which cannot
overflow for in-memory containers, are modelled as exact naturals.

The bit-stream layer (`coding/bit_streams.hpp`), the Elias coders
(`coding/elias_coder.hpp`), varint (`coding/varint.hpp`), zlib
(`coding/zlib.hpp`), little-endian primitive writes
(`coding/write_to_sink.hpp`) and `Restriction::IsValid` /
`Restriction::operator<` (`indexer/routing.cpp`) are not part of the
sources under verification; they are modelled from the specification
(spec sections 3, 4.1, 4.2, 4.4, 4.5) and marked as such in doc
comments.

A bit stream is a `List Bool` in emission order.  Within a byte, bits
are packed LSB-first (spec section 4.1); a multi-bit Elias codeword is
MSB-first (spec section 4.2).  Destroying a `BitWriter` zero-pads the
final partial byte (`bitsToBytes`); destroying a `BitReader` leaves the
underlying byte source positioned after the last pulled byte, which for
a reader that consumed `c` bits is `ceil(c/8)` bytes.

`CHECK*` macros of the base library are active in every build and stop
the program; they are modelled as `Option`/`TResult` failure.  `ASSERT*`
macros are compiled only in debug builds; the release build, which is
what ships, performs no check there, and the model follows the release
build (the debug-only checks are discussed at the theorems concerned).
-/

/-! ## Bit-level primitives (modelled from the spec, sections 4.1 and 4.2) -/


/-- Value of a bit list read MSB-first (first element is the most
significant bit), as used inside one Elias codeword. -/
def bitsMSBVal (l : List Bool) : Nat :=
  l.foldl (fun acc b => 2 * acc + (if b then 1 else 0)) 0

/-- Value of a bit list read LSB-first (first element is bit 0), the
within-byte bit order of the bit writer and reader. -/
def byteOfBitsLSB (l : List Bool) : Nat :=
  l.foldr (fun b acc => (if b then 1 else 0) + 2 * acc) 0

/-- The low `k` bits of `v`, LSB-first. -/
def bitsOfNat : Nat → Nat → List Bool
  | 0, _ => []
  | k + 1, v => decide (v % 2 = 1) :: bitsOfNat k (v / 2)

/-- Binary digits of `n`, least-significant first, empty for `0`
(fuel-based so that the kernel can evaluate it). -/
def natBitsLEAux : Nat → Nat → List Bool
  | 0, _ => []
  | fuel + 1, n => if n = 0 then [] else decide (n % 2 = 1) :: natBitsLEAux fuel (n / 2)

/-- Binary digits of `n`, least-significant first, empty for `0`. -/
def natBitsLE (n : Nat) : List Bool := natBitsLEAux n n

/-- Binary digits of `n`, most-significant first: the canonical `L`-bit
representation of `n ≥ 1`, starting with its leading 1 bit. -/
def natMSB (n : Nat) : List Bool := (natBitsLE n).reverse

/-- Elias-gamma codeword of `n ≥ 1` (spec section 4.2): `L − 1` zero
bits, then `n` in `L` bits MSB-first.  For `n = 0` the coder reports
failure and emits nothing, which is the empty list here. -/
def gammaEncode (n : Nat) : List Bool :=
  List.replicate ((natMSB n).length - 1) false ++ natMSB n

/-- Elias-delta codeword of `n ≥ 1` (spec section 4.2): gamma codeword
of the bit length `L`, then the low `L − 1` bits of `n` MSB-first.  For
`n = 0` the coder reports failure and emits nothing. -/
def deltaEncode (n : Nat) : List Bool :=
  if n = 0 then [] else gammaEncode (natMSB n).length ++ (natMSB n).tail

/-- Elias-gamma decoding from a bit stream: count the `z` leading zero
bits, consume the terminating one bit, then read `z` further bits; the
value is the `z + 1` read bits MSB-first.  `none` models the bit reader
raising end-of-input. -/
def gammaDecodeAux : Nat → List Bool → Option (Nat × List Bool)
  | _, [] => none
  | z, false :: s => gammaDecodeAux (z + 1) s
  | z, true :: s =>
    if z ≤ s.length then some (bitsMSBVal (true :: s.take z), s.drop z) else none

/-- Elias-gamma decoding (spec section 4.2). -/
def gammaDecode (s : List Bool) : Option (Nat × List Bool) := gammaDecodeAux 0 s

/-- Elias-delta decoding (spec section 4.2): gamma-decode the bit
length `L`, read `L − 1` further bits MSB-first and prepend the
implicit leading 1. -/
def deltaDecode (s : List Bool) : Option (Nat × List Bool) :=
  match gammaDecode s with
  | none => none
  | some (L, s1) =>
    if L - 1 ≤ s1.length then
      some (bitsMSBVal (true :: s1.take (L - 1)), s1.drop (L - 1))
    else none

/-- Packing of a finished bit stream into bytes, LSB-first within each
byte, the final partial byte zero-padded: the effect of writing the
stream through a `BitWriter` and destroying it (spec section 4.1). -/
def bitsToBytes : List Bool → List Nat
  | [] => []
  | b0 :: b1 :: b2 :: b3 :: b4 :: b5 :: b6 :: b7 :: rest =>
    byteOfBitsLSB [b0, b1, b2, b3, b4, b5, b6, b7] :: bitsToBytes rest
  | l => [byteOfBitsLSB l]

/-- The bit stream a `BitReader` obtains from a byte source: each byte
contributes its 8 bits LSB-first. -/
def bytesToBits (bytes : List Nat) : List Bool :=
  (bytes.map (bitsOfNat 8)).flatten

/-! ## Zig-zag coding and 32-bit wrap-around helpers -/

/-- Modelled from the spec (glossary): zig-zag encoding of a signed
32-bit integer into an unsigned one, placing small magnitudes near
zero. -/
def bits.ZigZagEncode (i : Int) : Nat :=
  if 0 ≤ i then 2 * i.toNat else 2 * (-i).toNat - 1

/-- Modelled from the spec (glossary): inverse of zig-zag encoding. -/
def bits.ZigZagDecode (u : Nat) : Int :=
  if u % 2 = 0 then ((u / 2 : Nat) : Int) else -((u / 2 : Nat) : Int) - 1

/-- Interpretation of a 32-bit pattern as a signed 32-bit value (the
effect of `static_cast<int32_t>` on a `uint32_t`). -/
def toSigned32 (x : Nat) : Int := if x < 2 ^ 31 then (x : Int) else (x : Int) - 2 ^ 32

/-- The wrapped signed 32-bit difference `int32(a) − int32(b)` of two
unsigned 32-bit values (spec section 4.3: wrapping as signed 32-bit). -/
def sdiff32 (a b : Nat) : Int := toSigned32 ((a + 2 ^ 32 - b % 2 ^ 32) % 2 ^ 32)

/-- Truncation of a signed sum back to `uint32_t` (the effect of
`static_cast<uint32_t>(ZigZagDecode(delta) + prevLinkFeatureId)`). -/
def add32 (d : Int) (b : Nat) : Nat := ((d + (b : Int)) % 2 ^ 32).toNat

/-! ## Varint (modelled from the spec, section 4.4: base-128 groups of
7 bits, continuation flag in bit 7) -/

/-- Fuel-based helper for `WriteVarUint`. -/
def WriteVarUintAux : Nat → Nat → List Nat
  | 0, n => [n]
  | fuel + 1, n => if n < 128 then [n] else (128 + n % 128) :: WriteVarUintAux fuel (n / 128)

/-- Modelled from the spec (section 4.4): `WriteVarUint` emits an
unsigned integer in base-128 groups, least-significant group first,
continuation bit set on every group but the last. -/
def WriteVarUint (n : Nat) : List Nat := WriteVarUintAux n n

/-- Modelled from the spec (section 4.4): `ReadVarUint` reads the
base-128 groups back; `none` models reading past the end of the
source. -/
def ReadVarUint : List Nat → Option (Nat × List Nat)
  | [] => none
  | b :: rest =>
    if b < 128 then some (b, rest)
    else
      match ReadVarUint rest with
      | none => none
      | some (v, r) => some (b % 128 + 128 * v, r)

/-! ## Data model of the restriction codec (src/indexer/routing.hpp) -/

/-- `routing::Restriction::Type` (routing.hpp): `No` forbids driving
along the chain, `Only` makes it the only permitted way through the
junction. -/
inductive RestrictionType where
  | No : RestrictionType
  | Only : RestrictionType
deriving DecidableEq

/-- `routing::Restriction` (routing.hpp): a typed chain of feature
ids.  Feature ids are `uint32_t`, modelled as naturals below `2^32`. -/
structure Restriction where
  m_type : RestrictionType
  m_featureIds : List Nat
deriving DecidableEq

/-- `routing::Restriction::kInvalidFeatureId`, the sentinel
`numeric_limits<uint32_t>::max()` (spec section 3). -/
def kInvalidFeatureId : Nat := 2 ^ 32 - 1

/-- Modelled from the spec (section 3): `Restriction::IsValid` is
defined in indexer/routing.cpp, which is not among the sources; a
restriction is valid iff it has at least 2 links and none of them is
the sentinel `kInvalidFeatureId`. -/
def Restriction.IsValid (r : Restriction) : Bool :=
  decide (2 ≤ r.m_featureIds.length) &&
    r.m_featureIds.all (fun a => decide (a ≠ kInvalidFeatureId))

/-- Rank of a restriction type under `operator<`: `No` sorts before
`Only` (spec section 3). -/
def typeRank : RestrictionType → Nat
  | RestrictionType.No => 0
  | RestrictionType.Only => 1

/-- Lexicographic comparison of `std::vector<uint32_t>`. -/
def listLt : List Nat → List Nat → Bool
  | [], [] => false
  | [], _ :: _ => true
  | _ :: _, [] => false
  | a :: ta, b :: tb => if a < b then true else if b < a then false else listLt ta tb

/-- Modelled from the spec (section 3): `Restriction::operator<`
(defined in indexer/routing.cpp): lexicographic on the pair of the
type (with `No` before `Only`) and the feature-id vector. -/
def Restriction.lt (a b : Restriction) : Bool :=
  if a.m_type = b.m_type then listLt a.m_featureIds b.m_featureIds
  else decide (typeRank a.m_type < typeRank b.m_type)

/-- `is_sorted` over `Restriction::operator<`: no element is less than
its predecessor. -/
def sortedRestrictions : List Restriction → Bool
  | [] => true
  | [_] => true
  | a :: b :: rest => !(Restriction.lt b a) && sortedRestrictions (b :: rest)

/-- The codeword stream of the feature ids of one restriction
(`RestrictionSerializer::SerializeSingleType`, routing.hpp lines
146-153): one biased zig-zag delta per id, threaded through
`prevLinkFeatureId`; the bias `delta + 1` wraps at `2^32` because
`delta` is a `uint32_t`, and the Elias coder emits nothing for the
value `0`. -/
def encodeLinks : Nat → List Nat → List Bool
  | _, [] => []
  | prev, a :: rest =>
    deltaEncode ((bits.ZigZagEncode (sdiff32 a prev) + 1) % 2 ^ 32) ++ encodeLinks a rest

/-- The full codeword stream of one restriction (routing.hpp lines
144-153): the biased link count `size − 1`, then the id deltas. -/
def encodeRestrictionBits (prev : Nat) (ids : List Nat) : List Bool :=
  deltaEncode (ids.length - 1) ++ encodeLinks prev ids

/-- `RestrictionSerializer::SerializeSingleType`, per-restriction loop
(routing.hpp lines 135-155): checks the per-element `CHECK` macros
(type equality, `IsValid`, more than one link; `CHECK` is active in
every build and stops the program, modelled as `none`) and emits one
freshly byte-aligned block per restriction; `prev` threads
`prevFisrtLinkFeatureId`. -/
def serializeGroup (ty : RestrictionType) (prev : Nat) : List Restriction → Option (List Nat)
  | [] => some []
  | r :: rest =>
    if r.m_type = ty ∧ r.IsValid = true ∧ 1 < r.m_featureIds.length then
      match serializeGroup ty (r.m_featureIds.headD 0) rest with
      | none => none
      | some b => some (bitsToBytes (encodeRestrictionBits prev r.m_featureIds) ++ b)
    else none

/-- `RestrictionSerializer::SerializeSingleType` (routing.hpp lines
125-156): nothing for an empty range, otherwise the `CHECK(is_sorted)`
entry guard followed by the per-restriction loop. -/
def RestrictionSerializer.SerializeSingleType (rs : List Restriction) : Option (List Nat) :=
  match rs with
  | [] => some []
  | r :: _ =>
    if sortedRestrictions rs = true then serializeGroup r.m_type 0 rs else none

/-- `RestrictionSerializer::Serialize` (routing.hpp lines 99-106): the
`No` range followed by the `Only` range. -/
def RestrictionSerializer.Serialize (noPart onlyPart : List Restriction) : Option (List Nat) :=
  match RestrictionSerializer.SerializeSingleType noPart with
  | none => none
  | some b1 =>
    match RestrictionSerializer.SerializeSingleType onlyPart with
    | none => none
    | some b2 => some (b1 ++ b2)

/-- Decoding of the feature-id codewords of one restriction
(`DeserializeSingleType`, inner loop, routing.hpp lines 177-189): each
decoded `uint64_t` is truncated to the `uint32_t` `biasedDelta`; a
decoded zero makes the function return `false` (`some (none, s)`
here); running out of input makes the underlying reader throw (`none`
here). -/
def decodeLinks : Nat → Nat → List Bool → Option (Option (List Nat) × List Bool)
  | 0, _, s => some (some [], s)
  | k + 1, prev, s =>
    match deltaDecode s with
    | none => none
    | some (v, s1) =>
      if v % 2 ^ 32 = 0 then some (none, s1)
      else
        match decodeLinks k (add32 (bits.ZigZagDecode (v % 2 ^ 32 - 1)) prev) s1 with
        | none => none
        | some (none, s2) => some (none, s2)
        | some (some ids, s2) =>
          some (some (add32 (bits.ZigZagDecode (v % 2 ^ 32 - 1)) prev :: ids), s2)

/-- Decoding of one restriction from a bit stream
(`DeserializeSingleType`, loop body, routing.hpp lines 165-189): the
decoded `uint64_t` link count is truncated to the `uint32_t`
`biasedLinkNumber`; zero aborts with `false`; the link count is the
`uint32_t` wrap of `biasedLinkNumber + 1`. -/
def decodeRestriction (prev : Nat) (s : List Bool) : Option (Option (List Nat) × List Bool) :=
  match deltaDecode s with
  | none => none
  | some (v, s1) =>
    if v % 2 ^ 32 = 0 then some (none, s1)
    else decodeLinks ((v % 2 ^ 32 + 1) % 2 ^ 32) prev s1

/-- One `BitReader` scope of `DeserializeSingleType` (routing.hpp line
165): the reader is created on the byte source, one restriction is
decoded, and destroying the reader leaves the source just after the
last pulled byte, i.e. `ceil(consumed bits / 8)` bytes in. -/
def deserializeOneRestriction (prev : Nat) (bytes : List Nat) :
    Option (Option (List Nat) × List Nat) :=
  match decodeRestriction prev (bytesToBits bytes) with
  | none => none
  | some (res, rem) =>
    some (res, bytes.drop ((8 * bytes.length - rem.length + 7) / 8))

/-- `RestrictionSerializer::DeserializeSingleType` (routing.hpp lines
158-195): reads `count` restrictions, each through a fresh bit reader,
threading `prevFisrtLinkFeatureId`; returns the C++ `bool` result
(`false` when a biased value decoded to zero), the restrictions pushed
so far, and the remaining bytes of the source. -/
def RestrictionSerializer.DeserializeSingleType (ty : RestrictionType) :
    Nat → Nat → List Nat → Option (Bool × List Restriction × List Nat)
  | 0, _, bytes => some (true, [], bytes)
  | count + 1, prev, bytes =>
    match deserializeOneRestriction prev bytes with
    | none => none
    | some (none, rest) => some (false, [], rest)
    | some (some ids, rest) =>
      match RestrictionSerializer.DeserializeSingleType ty count (ids.headD 0) rest with
      | none => none
      | some (ok, rs, rem) => some (ok, ⟨ty, ids⟩ :: rs, rem)

/-- `feature::RoutingHeader` (routing.hpp lines 58-92), fields as
naturals standing for two `uint16_t` and two `uint32_t`. -/
structure RoutingHeader where
  m_version : Nat
  m_reserved : Nat
  m_noRestrictionCount : Nat
  m_onlyRestrictionCount : Nat
deriving DecidableEq

/-- `RestrictionSerializer::Deserialize` (routing.hpp lines 108-116):
decodes the `No` group then the `Only` group into one vector.  The
C++ function is `void` and discards the `bool` results of both
`DeserializeSingleType` calls; only an exception from the underlying
reader (`none`) reaches the caller. -/
def RestrictionSerializer.Deserialize (header : RoutingHeader) (bytes : List Nat) :
    Option (List Restriction) :=
  match RestrictionSerializer.DeserializeSingleType RestrictionType.No
      header.m_noRestrictionCount 0 bytes with
  | none => none
  | some (_, rs1, rem1) =>
    match RestrictionSerializer.DeserializeSingleType RestrictionType.Only
        header.m_onlyRestrictionCount 0 rem1 with
    | none => none
    | some (_, rs2, _) => some (rs1 ++ rs2)

/-- Modelled from the spec (sections 3 and 6.1): `WriteToSink` of a
`uint16_t` is little-endian. -/
def writeU16LE (v : Nat) : List Nat := [v % 256, v / 256 % 256]

/-- Modelled from the spec (sections 3 and 6.1): `WriteToSink` of a
`uint32_t` is little-endian. -/
def writeU32LE (v : Nat) : List Nat :=
  [v % 256, v / 256 % 256, v / 2 ^ 16 % 256, v / 2 ^ 24 % 256]

/-- `RoutingHeader::Serialize` (routing.hpp lines 62-69): version,
reserved, `No` count, `Only` count, in that order. -/
def RoutingHeader.Serialize (h : RoutingHeader) : List Nat :=
  writeU16LE h.m_version ++ writeU16LE h.m_reserved ++
    writeU32LE h.m_noRestrictionCount ++ writeU32LE h.m_onlyRestrictionCount

/-- `RoutingHeader::Deserialize` (routing.hpp lines 71-78): reads the
same little-endian layout back; `none` models reading past the end of
the source. -/
def RoutingHeader.Deserialize : List Nat → Option (RoutingHeader × List Nat)
  | b0 :: b1 :: b2 :: b3 :: b4 :: b5 :: b6 :: b7 :: b8 :: b9 :: b10 :: b11 :: rest =>
    some (⟨b0 + 256 * b1, b2 + 256 * b3,
      b4 + 256 * b5 + 2 ^ 16 * b6 + 2 ^ 24 * b7,
      b8 + 256 * b9 + 2 ^ 16 * b10 + 2 ^ 24 * b11⟩, rest)
  | _ => none

/-- Side condition on one link chain: every id fits `uint32_t` and no
biased zig-zag delta hits the single wrap-around value `2^32 − 1`
(which would make `delta + 1` wrap to `0`, a value the Elias coder
cannot emit). -/
def idsOk : Nat → List Nat → Bool
  | _, [] => true
  | prev, a :: rest =>
    decide (a < 2 ^ 32) && decide (bits.ZigZagEncode (sdiff32 a prev) ≠ 2 ^ 32 - 1) &&
      idsOk a rest

/-- Side condition on a group, threading `prevFisrtLinkFeatureId`
exactly as the serializer does, and bounding every link count by
`2^32 − 1` so that its `uint32_t`-truncated biased form reproduces
it. -/
def encOk : Nat → List Restriction → Bool
  | _, [] => true
  | prev, r :: rest =>
    decide (r.m_featureIds.length ≤ 2 ^ 32 - 1) && idsOk prev r.m_featureIds &&
      encOk (r.m_featureIds.headD 0) rest

/-! ## Data model of the traffic codecs (src/traffic/traffic_info.cpp) -/

/-- `TrafficInfo::RoadSegmentId` (modelled from the spec section 3,
the struct lives in traffic_info.hpp): `fid : uint32_t`,
`idx : uint16_t`, `dir : uint8_t`. -/
structure RoadSegmentId where
  m_fid : Nat
  m_idx : Nat
  m_dir : Nat
deriving DecidableEq

/-- Modelled from the spec (section 3): the forward direction is 0. -/
def RoadSegmentId.kForwardDirection : Nat := 0

/-- Modelled from the spec (section 3): the reverse direction is 1. -/
def RoadSegmentId.kReverseDirection : Nat := 1

/-- Modelled from the spec (section 3): `SpeedGroup` is an enumeration
occupying the 3-bit range `[0, 7]`. -/
abbrev SpeedGroup := Fin 8

/-- Modelled from the spec (section 3): the distinguished value
`SpeedGroup::Unknown` reserved for absent data. -/
def SpeedGroup.Unknown : SpeedGroup := 7

/-- `TrafficInfo::kLatestKeysVersion` (traffic_info.cpp line 89). -/
def TrafficInfo.kLatestKeysVersion : Nat := 0

/-- `TrafficInfo::kLatestValuesVersion` (traffic_info.cpp line 90). -/
def TrafficInfo.kLatestValuesVersion : Nat := 0

/-- Failure outcomes of the traffic codecs, after the taxonomy of spec
section 7: `endOfInput` models the reader exception on an exhausted
source, `unsupportedVersion` the always-on `CHECK_EQUAL` on the
version byte. -/
inductive TrafficError where
  | endOfInput : TrafficError
  | unsupportedVersion : TrafficError
deriving DecidableEq

/-- Result of a traffic codec operation. -/
inductive TResult (α : Type) where
  | ok : α → TResult α
  | error : TrafficError → TResult α
deriving DecidableEq

/-- Fuel-based helper for `fidRuns`. -/
def fidRunsAux : Nat → List RoadSegmentId → List (List RoadSegmentId)
  | 0, _ => []
  | _ + 1, [] => []
  | fuel + 1, k :: rest =>
    (k :: rest.takeWhile (fun x => x.m_fid == k.m_fid)) ::
      fidRunsAux fuel (rest.dropWhile (fun x => x.m_fid == k.m_fid))

/-- The maximal runs of equal `m_fid`: the grouping loop of
`TrafficInfo::SerializeTrafficKeys` (traffic_info.cpp lines 213-240),
which extends the current run while the fid of the key equals the fid of
the first key of the run. -/
def fidRuns (keys : List RoadSegmentId) : List (List RoadSegmentId) :=
  fidRunsAux keys.length keys

/-- Whether a run is one-way: no entry has the reverse direction
(traffic_info.cpp lines 219-227). -/
def groupOneWay (g : List RoadSegmentId) : Bool :=
  !(g.any (fun k => k.m_dir == RoadSegmentId.kReverseDirection))

/-- The grouping pass of `SerializeTrafficKeys` (traffic_info.cpp
lines 210-240): for every run, the fid of the run head, the segment count
(entry count divided by the direction count) and the one-way flag.
`CHECK_EQUAL(numSegsForThisFid % numDirs, 0, ())` (line 232) is active
in every build and stops the program, modelled as `none`. -/
def serializeGroups : List (List RoadSegmentId) → Option (List (Nat × Nat × Bool))
  | [] => some []
  | g :: rest =>
    if g.length % (if groupOneWay g then 1 else 2) = 0 then
      match serializeGroups rest with
      | none => none
      | some ts =>
        some (((g.headD ⟨0, 0, 0⟩).m_fid,
          g.length / (if groupOneWay g then 1 else 2), groupOneWay g) :: ts)
    else none

/-- The biased fid-delta codewords (traffic_info.cpp lines 249-256):
`fidDiff` is the `uint32_t` difference to the fid of the previous run, and
the bias `fidDiff + 1` also wraps at `2^32`; the Elias coder emits
nothing for the value `0` (its failure is only inspected by a
debug-only `ASSERT`). -/
def fidDeltaBits : Nat → List (Nat × Nat × Bool) → List Bool
  | _, [] => []
  | prev, t :: rest =>
    gammaEncode ((((t.1 + 2 ^ 32 - prev % 2 ^ 32) % 2 ^ 32) + 1) % 2 ^ 32) ++
      fidDeltaBits t.1 rest

/-- The three bit-packed passes of `SerializeTrafficKeys`
(traffic_info.cpp lines 246-266): all fid deltas, then all biased
segment counts, then all one-way flags, through a single bit
writer. -/
def keysPayloadBits (ts : List (Nat × Nat × Bool)) : List Bool :=
  fidDeltaBits 0 ts ++ (ts.map (fun t => gammaEncode (t.2.1 + 1))).flatten ++
    ts.map (fun t => t.2.2)

/-- `TrafficInfo::SerializeTrafficKeys` (traffic_info.cpp lines
208-267): version byte, varint group count, bit-packed payload. -/
def TrafficInfo.SerializeTrafficKeys (keys : List RoadSegmentId) : Option (List Nat) :=
  match serializeGroups (fidRuns keys) with
  | none => none
  | some ts =>
    some (TrafficInfo.kLatestKeysVersion ::
      (WriteVarUint ts.length ++ bitsToBytes (keysPayloadBits ts)))

/-- The fid-recovery loop of `DeserializeTrafficKeys`
(traffic_info.cpp lines 286-290): the `uint32_t` `prevFid`
accumulates `decode − 1`, wrapping at `2^32`. -/
def readFids : Nat → Nat → List Bool → Option (List Nat × List Bool)
  | 0, _, s => some ([], s)
  | n + 1, prev, s =>
    match gammaDecode s with
    | none => none
    | some (d, s1) =>
      match readFids n ((prev + (d - 1)) % 2 ^ 32) s1 with
      | none => none
      | some (fs, s2) => some ((prev + (d - 1)) % 2 ^ 32 :: fs, s2)

/-- The segment-count loop of `DeserializeTrafficKeys`
(traffic_info.cpp lines 292-293). -/
def readSegCounts : Nat → List Bool → Option (List Nat × List Bool)
  | 0, s => some ([], s)
  | n + 1, s =>
    match gammaDecode s with
    | none => none
    | some (d, s1) =>
      match readSegCounts n s1 with
      | none => none
      | some (ms, s2) => some ((d - 1) :: ms, s2)

/-- The one-way flag loop of `DeserializeTrafficKeys`
(traffic_info.cpp lines 295-296): one bit each, true iff positive. -/
def readFlags : Nat → List Bool → Option (List Bool × List Bool)
  | 0, s => some ([], s)
  | _ + 1, [] => none
  | n + 1, b :: s =>
    match readFlags n s with
    | none => none
    | some (fs, s2) => some (b :: fs, s2)

/-- The key re-expansion loop of `DeserializeTrafficKeys`
(traffic_info.cpp lines 301-314): per group, every segment index below
the segment count, direction innermost; the `RoadSegmentId`
constructor truncates the index to `uint16_t`. -/
def expandKeys : List (Nat × Nat × Bool) → List RoadSegmentId
  | [] => []
  | (fid, m, ow) :: rest =>
    ((List.range m).map (fun j =>
      (List.range (if ow then 1 else 2)).map
        (fun d => (⟨fid, j % 2 ^ 16, d⟩ : RoadSegmentId)))).flatten ++ expandKeys rest

/-- The decoding core of `TrafficInfo::DeserializeTrafficKeys`
(traffic_info.cpp lines 270-315), also returning the bytes left in
the source once the bit reader is destroyed.  Line 299 inspects those
leftovers only through a debug-only `ASSERT_EQUAL(src.Size(), 0, ())`,
which the release build omits. -/
def DeserializeTrafficKeysCore (data : List Nat) :
    TResult (List RoadSegmentId × List Nat) :=
  match data with
  | [] => TResult.error TrafficError.endOfInput
  | v :: rest =>
    if v = TrafficInfo.kLatestKeysVersion then
      match ReadVarUint rest with
      | none => TResult.error TrafficError.endOfInput
      | some (n, rest2) =>
        match readFids n 0 (bytesToBits rest2) with
        | none => TResult.error TrafficError.endOfInput
        | some (fids, s1) =>
          match readSegCounts n s1 with
          | none => TResult.error TrafficError.endOfInput
          | some (ms, s2) =>
            match readFlags n s2 with
            | none => TResult.error TrafficError.endOfInput
            | some (ows, s3) =>
              TResult.ok (expandKeys (fids.zip (ms.zip ows)),
                rest2.drop ((8 * rest2.length - s3.length + 7) / 8))
    else TResult.error TrafficError.unsupportedVersion

/-- `TrafficInfo::DeserializeTrafficKeys` as the release build behaves
(the trailing-bytes check is a debug-only assert). -/
def TrafficInfo.DeserializeTrafficKeys (data : List Nat) : TResult (List RoadSegmentId) :=
  match DeserializeTrafficKeysCore data with
  | TResult.ok (keys, _) => TResult.ok keys
  | TResult.error e => TResult.error e

/-- Modelled from the spec (sections 1, 4.5 and 7): zlib deflate is an
external collaborator of the codec core, constrained only to form a
lossless pair with `Inflate`; it is modelled as the identity on byte
lists. -/
def ZLib.Deflate (data : List Nat) : List Nat := data

/-- Modelled from the spec: zlib inflate, the inverse of `Deflate`. -/
def ZLib.Inflate (data : List Nat) : List Nat := data

/-- `TrafficInfo::SerializeTrafficValues` (traffic_info.cpp lines
318-336): version byte, varint count, one 3-bit codeword per value
LSB-first, zero-padded to a byte boundary, then deflated. -/
def TrafficInfo.SerializeTrafficValues (values : List SpeedGroup) : List Nat :=
  ZLib.Deflate (TrafficInfo.kLatestValuesVersion ::
    (WriteVarUint values.length ++
      bitsToBytes ((values.map (fun v => bitsOfNat 3 v.val)).flatten)))

/-- The 3-bit value loop of `DeserializeTrafficValues`
(traffic_info.cpp lines 354-358): `Read(3)` assembles three bits
LSB-first into a `SpeedGroup`. -/
def readValues : Nat → List Bool → Option (List SpeedGroup × List Bool)
  | 0, s => some ([], s)
  | n + 1, b0 :: b1 :: b2 :: s =>
    match readValues n s with
    | none => none
    | some (vs, s2) =>
      some ((⟨byteOfBitsLSB [b0, b1, b2] % 8, Nat.mod_lt _ (by decide)⟩ : SpeedGroup) :: vs, s2)
  | _ + 1, _ => none

/-- `TrafficInfo::DeserializeTrafficValues` (traffic_info.cpp lines
339-361): inflate, version check (`CHECK_EQUAL`, active in every
build), varint count, the 3-bit values; the trailing-bytes check on
line 360 is a debug-only assert and the release build accepts
leftovers. -/
def TrafficInfo.DeserializeTrafficValues (data : List Nat) : TResult (List SpeedGroup) :=
  match ZLib.Inflate data with
  | [] => TResult.error TrafficError.endOfInput
  | v :: rest =>
    if v = TrafficInfo.kLatestValuesVersion then
      match ReadVarUint rest with
      | none => TResult.error TrafficError.endOfInput
      | some (n, rest2) =>
        match readValues n (bytesToBits rest2) with
        | none => TResult.error TrafficError.endOfInput
        | some (vs, _) => TResult.ok vs
    else TResult.error TrafficError.unsupportedVersion

/-- `TrafficInfo::Coloring`, the C++ `map<RoadSegmentId, SpeedGroup>`,
modelled as an association list in which insertion replaces an
existing binding of the same key. -/
abbrev Coloring := List (RoadSegmentId × SpeedGroup)

/-- Map update `result[key] = v`. -/
def insertColoring : Coloring → RoadSegmentId → SpeedGroup → Coloring
  | [], k, v => [(k, v)]
  | (k0, v0) :: rest, k, v =>
    if k0 = k then (k, v) :: rest else (k0, v0) :: insertColoring rest k v

/-- Map lookup `m.find(key)`. -/
def lookupColoring : Coloring → RoadSegmentId → Option SpeedGroup
  | [], _ => none
  | (k0, v0) :: rest, k => if k0 = k then some v0 else lookupColoring rest k

/-- `--numUnexpectedKeys` on a `size_t`, wrapping at `2^64`. -/
def dec64 (u : Nat) : Nat := (u + 2 ^ 64 - 1) % 2 ^ 64

/-- `CombineColorings` (traffic_info.cpp lines 180-205): iterates the
key list, filling `SpeedGroup::Unknown` for keys missing from
`knownColors` and copying the known value otherwise;
`numUnexpectedKeys` starts at the size of the known map and is decremented
whenever a key is found.  The closing
`ASSERT_EQUAL(numUnexpectedKeys, 0, ())` (line 204) is debug-only, so
the release build returns normally regardless; the model returns the
built coloring together with the final `numUnexpectedKeys`. -/
def CombineColorings (keys : List RoadSegmentId) (knownColors : Coloring) :
    Coloring × Nat :=
  keys.foldl
    (fun acc key =>
      match lookupColoring knownColors key with
      | none => (insertColoring acc.1 key SpeedGroup.Unknown, acc.2)
      | some v => (insertColoring acc.1 key v, dec64 acc.2))
    ([], knownColors.length)

/-- The canonical one-way run: segment indices `0 .. m−1`, forward
only. -/
def oneWayGroup (fid m : Nat) : List RoadSegmentId :=
  (List.range m).map (fun j => ⟨fid, j, 0⟩)

/-- The canonical two-way run: both directions per segment index,
direction innermost. -/
def twoWayGroup (fid m : Nat) : List RoadSegmentId :=
  ((List.range m).map
    (fun j => [(⟨fid, j, 0⟩ : RoadSegmentId), ⟨fid, j, 1⟩])).flatten

/-- A run the keys codec can reproduce: nonempty, fid in `uint32_t`
range, segment indices exactly `0 .. m−1` with `m` fitting `uint16_t`,
in the canonical one-way or two-way layout. -/
def goodRun (g : List RoadSegmentId) : Bool :=
  match g with
  | [] => false
  | k :: _ =>
    decide (k.m_fid < 2 ^ 32) &&
      (if groupOneWay g then
        decide (g.length ≤ 2 ^ 16) && decide (g = oneWayGroup k.m_fid g.length)
      else
        decide (g.length / 2 ≤ 2 ^ 16) && decide (g = twoWayGroup k.m_fid (g.length / 2)))

/-- The fids of the runs, in order. -/
def runFids (keys : List RoadSegmentId) : List Nat :=
  (fidRuns keys).map (fun g => (g.headD ⟨0, 0, 0⟩).m_fid)

/-- Side condition: no biased fid delta wraps to `0` (the single
excluded delta value `2^32 − 1`), threaded through the previous run
fid exactly as the serializer does. -/
def fidDeltasOk : Nat → List Nat → Bool
  | _, [] => true
  | prev, f :: rest =>
    decide ((((f + 2 ^ 32 - prev % 2 ^ 32) % 2 ^ 32) + 1) % 2 ^ 32 ≠ 0) && fidDeltasOk f rest

/-- Modelled from the spec (section 3): `RoadSegmentId::operator<`,
lexicographic on `(fid, idx, dir)`. -/
def RoadSegmentId.lt (a b : RoadSegmentId) : Bool :=
  if a.m_fid ≠ b.m_fid then decide (a.m_fid < b.m_fid)
  else if a.m_idx ≠ b.m_idx then decide (a.m_idx < b.m_idx)
  else decide (a.m_dir < b.m_dir)

/-- `is_sorted` over `RoadSegmentId::operator<`. -/
def sortedKeys : List RoadSegmentId → Bool
  | [] => true
  | [_] => true
  | a :: b :: rest => !(RoadSegmentId.lt b a) && sortedKeys (b :: rest)

/-! ## Theorems -/

/-! ## Basic lemmas about the bit-level primitives -/

theorem natBitsLEAux_congr :
    ∀ f1 f2 n : Nat, n ≤ f1 → n ≤ f2 → natBitsLEAux f1 n = natBitsLEAux f2 n := by
  intro f1
  induction f1 with
  | zero =>
    intro f2 n h1 _
    have hn : n = 0 := Nat.le_zero.mp h1
    cases f2 <;> simp [natBitsLEAux, hn]
  | succ f ih =>
    intro f2 n h1 h2
    by_cases hn : n = 0
    · cases f2 <;> simp [natBitsLEAux, hn]
    · have hpos : 1 ≤ n := Nat.one_le_iff_ne_zero.mpr hn
      obtain ⟨f2p, rfl⟩ : ∃ m, f2 = m + 1 := ⟨f2 - 1, by omega⟩
      have hdiv : n / 2 < n := Nat.div_lt_self hpos (by decide)
      simp only [natBitsLEAux, hn, if_false]
      rw [ih f2p (n / 2) (by omega) (by omega)]

/-- The defining recurrence of `natBitsLE`. -/
theorem natBitsLE_unfold (n : Nat) :
    natBitsLE n = if n = 0 then [] else decide (n % 2 = 1) :: natBitsLE (n / 2) := by
  by_cases hn : n = 0
  · simp [natBitsLE, natBitsLEAux, hn]
  · have hpos : 1 ≤ n := Nat.one_le_iff_ne_zero.mpr hn
    obtain ⟨m, rfl⟩ : ∃ m, n = m + 1 := ⟨n - 1, by omega⟩
    simp only [natBitsLE, natBitsLEAux, hn, if_false]
    rw [natBitsLEAux_congr m ((m + 1) / 2) ((m + 1) / 2)
      (by omega) (Nat.le_refl _)]

theorem bitsMSBVal_append_singleton (l : List Bool) (b : Bool) :
    bitsMSBVal (l ++ [b]) = 2 * bitsMSBVal l + (if b then 1 else 0) := by
  simp [bitsMSBVal, List.foldl_append]

theorem natMSB_zero : natMSB 0 = [] := by
  simp [natMSB, natBitsLE, natBitsLEAux]

theorem natMSB_unfold (n : Nat) (h : n ≠ 0) :
    natMSB n = natMSB (n / 2) ++ [decide (n % 2 = 1)] := by
  unfold natMSB
  rw [natBitsLE_unfold n]
  simp [h]

/-- Reading back the canonical MSB-first representation gives the
number itself. -/
theorem bitsMSBVal_natMSB (n : Nat) : bitsMSBVal (natMSB n) = n := by
  induction n using Nat.strong_induction_on with
  | _ n ih =>
    by_cases hn : n = 0
    · simp [hn, natMSB_zero, bitsMSBVal]
    · rw [natMSB_unfold n hn, bitsMSBVal_append_singleton,
        ih (n / 2) (Nat.div_lt_self (Nat.one_le_iff_ne_zero.mpr hn) (by decide))]
      rcases Nat.mod_two_eq_zero_or_one n with h | h <;> simp [h] <;> omega

/-- For `n ≥ 1` the canonical representation starts with a 1 bit. -/
theorem natMSB_head (n : Nat) (h : 1 ≤ n) : ∃ t, natMSB n = true :: t := by
  induction n using Nat.strong_induction_on with
  | _ n ih =>
    by_cases h1 : n = 1
    · subst h1
      exact ⟨[], by rw [natMSB_unfold 1 (by decide)]; simp [natMSB_zero]⟩
    · have h2 : 2 ≤ n := by omega
      have hd : 1 ≤ n / 2 := (Nat.le_div_iff_mul_le (by decide)).mpr (by omega)
      obtain ⟨t, ht⟩ := ih (n / 2) (Nat.div_lt_self (by omega) (by decide)) hd
      rw [natMSB_unfold n (by omega), ht]
      exact ⟨t ++ [decide (n % 2 = 1)], rfl⟩

theorem take_length_append {α : Type} (l1 l2 : List α) :
    (l1 ++ l2).take l1.length = l1 := by
  induction l1 with
  | nil => simp
  | cons a t ih => simp [ih]

theorem drop_length_append {α : Type} (l1 l2 : List α) :
    (l1 ++ l2).drop l1.length = l2 := by
  induction l1 with
  | nil => simp
  | cons a t ih => simp [ih]

theorem gammaDecodeAux_false (z : Nat) (s : List Bool) :
    gammaDecodeAux z (false :: s) = gammaDecodeAux (z + 1) s := rfl

theorem gammaDecodeAux_replicate (k z : Nat) (s : List Bool) :
    gammaDecodeAux z (List.replicate k false ++ s) = gammaDecodeAux (z + k) s := by
  induction k generalizing z with
  | zero => simp
  | succ m ih =>
    rw [List.replicate_succ, List.cons_append, gammaDecodeAux_false, ih (z + 1),
      show z + 1 + m = z + (m + 1) from by omega]

/-- Gamma decoding inverts gamma encoding on any continuation of the
stream, for every positive value. -/
theorem gammaDecode_encode (n : Nat) (h : 1 ≤ n) (rest : List Bool) :
    gammaDecode (gammaEncode n ++ rest) = some (n, rest) := by
  obtain ⟨t, ht⟩ := natMSB_head n h
  unfold gammaDecode gammaEncode
  rw [ht]
  simp only [List.length_cons, Nat.add_sub_cancel, List.append_assoc, List.cons_append]
  rw [gammaDecodeAux_replicate t.length 0 (true :: (t ++ rest))]
  simp only [gammaDecodeAux, Nat.zero_add]
  rw [if_pos (by simp)]
  rw [take_length_append t rest, drop_length_append t rest]
  rw [show true :: t = natMSB n from ht.symm, bitsMSBVal_natMSB]

/-- Delta decoding inverts delta encoding on any continuation of the
stream, for every positive value. -/
theorem deltaDecode_encode (n : Nat) (h : 1 ≤ n) (rest : List Bool) :
    deltaDecode (deltaEncode n ++ rest) = some (n, rest) := by
  obtain ⟨t, ht⟩ := natMSB_head n h
  have hlen : (natMSB n).length = t.length + 1 := by rw [ht]; rfl
  have hg := gammaDecode_encode (natMSB n).length (by omega) ((natMSB n).tail ++ rest)
  unfold deltaEncode
  rw [if_neg (by omega), List.append_assoc]
  unfold deltaDecode
  rw [hg]
  simp only [ht, List.tail_cons, hlen, Nat.add_sub_cancel]
  rw [if_pos (by simp)]
  simp only [List.length_cons, Nat.add_sub_cancel]
  rw [take_length_append t rest, drop_length_append t rest]
  rw [show true :: t = natMSB n from ht.symm, bitsMSBVal_natMSB]

theorem byteOfBitsLSB_cons (b : Bool) (t : List Bool) :
    byteOfBitsLSB (b :: t) = (if b then 1 else 0) + 2 * byteOfBitsLSB t := rfl

theorem bitsOfNat_zero (k : Nat) : bitsOfNat k 0 = List.replicate k false := by
  induction k with
  | zero => rfl
  | succ m ih => simp [bitsOfNat, ih, List.replicate_succ]

theorem bitsOfNat_length (k v : Nat) : (bitsOfNat k v).length = k := by
  induction k generalizing v with
  | zero => rfl
  | succ m ih => simp [bitsOfNat, ih]

/-- Reading `k` bits LSB-first recovers a bit list of length at most
`k`, padded with zero bits. -/
theorem bitsOfNat_byteOfBitsLSB (l : List Bool) (k : Nat) (h : l.length ≤ k) :
    bitsOfNat k (byteOfBitsLSB l) = l ++ List.replicate (k - l.length) false := by
  induction l generalizing k with
  | nil => simp [byteOfBitsLSB, bitsOfNat_zero]
  | cons b t ih =>
    obtain ⟨m, rfl⟩ : ∃ m, k = m + 1 := ⟨k - 1, by simp at h; omega⟩
    rw [byteOfBitsLSB_cons]
    have hmod : ((if b then 1 else 0) + 2 * byteOfBitsLSB t) % 2 = (if b then 1 else 0) := by
      rcases b <;> simp [Nat.add_mul_mod_self_left]
    have hdiv : ((if b then 1 else 0) + 2 * byteOfBitsLSB t) / 2 = byteOfBitsLSB t := by
      rcases b <;> omega
    simp only [bitsOfNat, hmod, hdiv]
    rw [ih m (by simp at h; omega)]
    rcases b <;> simp [List.length_cons]

theorem bytesToBits_nil : bytesToBits [] = [] := rfl

theorem bytesToBits_cons (y : Nat) (rest : List Nat) :
    bytesToBits (y :: rest) = bitsOfNat 8 y ++ bytesToBits rest := by
  simp [bytesToBits]

theorem bytesToBits_append (l1 l2 : List Nat) :
    bytesToBits (l1 ++ l2) = bytesToBits l1 ++ bytesToBits l2 := by
  simp [bytesToBits]

theorem bytesToBits_length (l : List Nat) : (bytesToBits l).length = 8 * l.length := by
  induction l with
  | nil => rfl
  | cons y rest ih => rw [bytesToBits_cons]; simp [bitsOfNat_length, ih]; omega

/-- For a nonempty bit list shorter than a byte, packing produces the
single padded byte. -/
theorem bitsToBytes_short (l : List Bool) (h1 : 1 ≤ l.length) (h7 : l.length ≤ 7) :
    bitsToBytes l = [byteOfBitsLSB l] := by
  match l, h1, h7 with
  | [a0], _, _ => rfl
  | [a0, a1], _, _ => rfl
  | [a0, a1, a2], _, _ => rfl
  | [a0, a1, a2, a3], _, _ => rfl
  | [a0, a1, a2, a3, a4], _, _ => rfl
  | [a0, a1, a2, a3, a4, a5], _, _ => rfl
  | [a0, a1, a2, a3, a4, a5, a6], _, _ => rfl
  | [], h, _ => simp at h
  | a0 :: a1 :: a2 :: a3 :: a4 :: a5 :: a6 :: a7 :: rest, _, h => simp at h

/-- Unpacking the packed form of a bit stream returns the stream
followed by the zero padding of the final partial byte. -/
theorem bytesToBits_bitsToBytes (bs : List Bool) :
    bytesToBits (bitsToBytes bs) = bs ++ List.replicate ((8 - bs.length % 8) % 8) false := by
  induction bs using bitsToBytes.induct with
  | case1 => rfl
  | case2 b0 b1 b2 b3 b4 b5 b6 b7 rest ih =>
    rw [bitsToBytes, bytesToBits_cons, ih,
      bitsOfNat_byteOfBitsLSB [b0, b1, b2, b3, b4, b5, b6, b7] 8 (by rfl)]
    simp only [List.length_cons, List.length_nil]
    norm_num
    have hmod : (rest.length + 8) % 8 = rest.length % 8 := by omega
    simp [hmod]
  | case3 l h1 h2 =>
    have hlen : l.length ≤ 7 := by
      by_contra hgt
      obtain ⟨b0, t0, rfl⟩ : ∃ b t, l = b :: t := by
        cases l with
        | nil => simp at hgt
        | cons a t => exact ⟨a, t, rfl⟩
      obtain ⟨b1, t1, rfl⟩ : ∃ b t, t0 = b :: t := by
        cases t0 with
        | nil => simp at hgt
        | cons a t => exact ⟨a, t, rfl⟩
      obtain ⟨b2, t2, rfl⟩ : ∃ b t, t1 = b :: t := by
        cases t1 with
        | nil => simp at hgt
        | cons a t => exact ⟨a, t, rfl⟩
      obtain ⟨b3, t3, rfl⟩ : ∃ b t, t2 = b :: t := by
        cases t2 with
        | nil => simp at hgt
        | cons a t => exact ⟨a, t, rfl⟩
      obtain ⟨b4, t4, rfl⟩ : ∃ b t, t3 = b :: t := by
        cases t3 with
        | nil => simp at hgt
        | cons a t => exact ⟨a, t, rfl⟩
      obtain ⟨b5, t5, rfl⟩ : ∃ b t, t4 = b :: t := by
        cases t4 with
        | nil => simp at hgt
        | cons a t => exact ⟨a, t, rfl⟩
      obtain ⟨b6, t6, rfl⟩ : ∃ b t, t5 = b :: t := by
        cases t5 with
        | nil => simp at hgt
        | cons a t => exact ⟨a, t, rfl⟩
      obtain ⟨b7, t7, rfl⟩ : ∃ b t, t6 = b :: t := by
        cases t6 with
        | nil => simp at hgt
        | cons a t => exact ⟨a, t, rfl⟩
      exact h2 b0 b1 b2 b3 b4 b5 b6 b7 t7 rfl
    have hpos : 1 ≤ l.length := by
      cases l with
      | nil => exact absurd rfl h1
      | cons a t => simp
    rw [bitsToBytes_short l hpos hlen]
    rw [show bytesToBits [byteOfBitsLSB l] = bitsOfNat 8 (byteOfBitsLSB l) from by
      simp [bytesToBits]]
    rw [bitsOfNat_byteOfBitsLSB l 8 (by omega)]
    have hml : l.length % 8 = l.length := Nat.mod_eq_of_lt (by omega)
    rw [hml, show (8 - l.length) % 8 = 8 - l.length from Nat.mod_eq_of_lt (by omega)]

theorem bitsToBytes_length (bs : List Bool) :
    (bitsToBytes bs).length = (bs.length + 7) / 8 := by
  have h := congrArg List.length (bytesToBits_bitsToBytes bs)
  rw [bytesToBits_length] at h
  simp only [List.length_append, List.length_replicate] at h
  omega

/-- A bit reader that consumed exactly the bits of a packed block
(leaving the padding of the final partial byte and the bits of the
following bytes unread) has pulled exactly the bytes of the block from the
source: dropping them leaves the tail. -/
theorem scope_drop_block (bs : List Bool) (tail : List Nat) :
    (bitsToBytes bs ++ tail).drop
      ((8 * (bitsToBytes bs ++ tail).length
         - (List.replicate ((8 - bs.length % 8) % 8) false ++ bytesToBits tail).length + 7) / 8)
      = tail := by
  have hP := bitsToBytes_length bs
  rw [List.length_append, List.length_append, List.length_replicate, bytesToBits_length]
  rw [show (8 * ((bitsToBytes bs).length + tail.length)
      - ((8 - bs.length % 8) % 8 + 8 * tail.length) + 7) / 8 = (bitsToBytes bs).length by omega]
  exact drop_length_append _ _

theorem zigZag_roundtrip (i : Int) : bits.ZigZagDecode (bits.ZigZagEncode i) = i := by
  unfold bits.ZigZagDecode bits.ZigZagEncode
  split_ifs <;> omega

theorem zigZagEncode_lt (i : Int) (h1 : -(2 ^ 31) ≤ i) (h2 : i < 2 ^ 31) :
    bits.ZigZagEncode i < 2 ^ 32 := by
  unfold bits.ZigZagEncode
  split_ifs <;> omega

theorem sdiff32_lb (a b : Nat) : -(2 ^ 31) ≤ sdiff32 a b := by
  unfold sdiff32 toSigned32
  split_ifs <;> omega

theorem sdiff32_ub (a b : Nat) : sdiff32 a b < 2 ^ 31 := by
  unfold sdiff32 toSigned32
  split_ifs <;> omega

theorem add32_sdiff32 (a b : Nat) (ha : a < 2 ^ 32) (hb : b < 2 ^ 32) :
    add32 (sdiff32 a b) b = a := by
  unfold add32 sdiff32 toSigned32
  split_ifs <;> omega

theorem WriteVarUintAux_congr :
    ∀ f1 f2 n : Nat, n ≤ f1 → n ≤ f2 → WriteVarUintAux f1 n = WriteVarUintAux f2 n := by
  intro f1
  induction f1 with
  | zero =>
    intro f2 n h1 _
    have hn : n = 0 := Nat.le_zero.mp h1
    cases f2 <;> simp [WriteVarUintAux, hn]
  | succ f ih =>
    intro f2 n h1 h2
    by_cases hn : n < 128
    · cases f2 with
      | zero =>
        have : n = 0 := Nat.le_zero.mp h2
        simp [WriteVarUintAux, this]
      | succ g => simp [WriteVarUintAux, hn]
    · obtain ⟨g, rfl⟩ : ∃ m, f2 = m + 1 := ⟨f2 - 1, by omega⟩
      have hdiv : n / 128 < n := Nat.div_lt_self (by omega) (by decide)
      simp only [WriteVarUintAux, hn, if_false]
      rw [ih g (n / 128) (by omega) (by omega)]

theorem WriteVarUint_unfold (n : Nat) :
    WriteVarUint n = if n < 128 then [n] else (128 + n % 128) :: WriteVarUint (n / 128) := by
  by_cases hn : n < 128
  · cases n with
    | zero => simp [WriteVarUint, WriteVarUintAux]
    | succ m => simp [WriteVarUint, WriteVarUintAux, hn]
  · obtain ⟨m, rfl⟩ : ∃ m, n = m + 1 := ⟨n - 1, by omega⟩
    simp only [WriteVarUint, WriteVarUintAux, hn, if_false]
    rw [WriteVarUintAux_congr m ((m + 1) / 128) ((m + 1) / 128) (by omega) (Nat.le_refl _)]

/-- Varint decoding inverts varint encoding on any continuation. -/
theorem ReadVarUint_write (n : Nat) (rest : List Nat) :
    ReadVarUint (WriteVarUint n ++ rest) = some (n, rest) := by
  induction n using Nat.strong_induction_on with
  | _ n ih =>
    rw [WriteVarUint_unfold n]
    by_cases hn : n < 128
    · simp [hn, ReadVarUint]
    · have hdiv : n / 128 < n := Nat.div_lt_self (by omega) (by decide)
      rw [if_neg hn]
      simp only [List.cons_append, ReadVarUint, if_neg (show ¬ 128 + n % 128 < 128 by omega)]
      simp only [List.append_eq]
      rw [ih (n / 128) hdiv]
      simp only [Option.some.injEq, Prod.mk.injEq]
      exact ⟨by omega, trivial⟩

/-! ## Round-trip of the restriction codec -/

theorem decodeLinks_encode (ids : List Nat) :
    ∀ prev rest, prev < 2 ^ 32 → idsOk prev ids = true →
    decodeLinks ids.length prev (encodeLinks prev ids ++ rest) = some (some ids, rest) := by
  induction ids with
  | nil =>
    intro prev rest _ _
    simp [encodeLinks, decodeLinks]
  | cons a t ih =>
    intro prev rest hprev hok
    simp only [idsOk, Bool.and_eq_true, decide_eq_true_eq] at hok
    obtain ⟨⟨ha, hd⟩, ht⟩ := hok
    have hDlt : bits.ZigZagEncode (sdiff32 a prev) < 2 ^ 32 :=
      zigZagEncode_lt _ (sdiff32_lb a prev) (sdiff32_ub a prev)
    have hbias : (bits.ZigZagEncode (sdiff32 a prev) + 1) % 2 ^ 32
        = bits.ZigZagEncode (sdiff32 a prev) + 1 := Nat.mod_eq_of_lt (by omega)
    show decodeLinks (t.length + 1) prev
      ((deltaEncode ((bits.ZigZagEncode (sdiff32 a prev) + 1) % 2 ^ 32) ++ encodeLinks a t)
        ++ rest) = _
    rw [hbias, List.append_assoc]
    simp only [decodeLinks]
    rw [deltaDecode_encode (bits.ZigZagEncode (sdiff32 a prev) + 1) (by omega)
      (encodeLinks a t ++ rest)]
    simp only [hbias]
    rw [if_neg (by omega)]
    have hfid : add32 (bits.ZigZagDecode (bits.ZigZagEncode (sdiff32 a prev) + 1 - 1)) prev
        = a := by
      rw [Nat.add_sub_cancel, zigZag_roundtrip]
      exact add32_sdiff32 a prev ha hprev
    rw [hfid, ih a rest ha ht]

theorem decodeRestriction_encode (ids : List Nat) (prev : Nat) (rest : List Bool)
    (hprev : prev < 2 ^ 32) (h2 : 2 ≤ ids.length) (hlen : ids.length ≤ 2 ^ 32 - 1)
    (hids : idsOk prev ids = true) :
    decodeRestriction prev (encodeRestrictionBits prev ids ++ rest) = some (some ids, rest) := by
  unfold encodeRestrictionBits decodeRestriction
  rw [List.append_assoc,
    deltaDecode_encode (ids.length - 1) (by omega) (encodeLinks prev ids ++ rest)]
  have hm : (ids.length - 1) % 2 ^ 32 = ids.length - 1 := Nat.mod_eq_of_lt (by omega)
  simp only [hm]
  rw [if_neg (by omega)]
  rw [show (ids.length - 1 + 1) % 2 ^ 32 = ids.length by
    rw [Nat.sub_add_cancel (by omega)]; exact Nat.mod_eq_of_lt (by omega)]
  exact decodeLinks_encode ids prev rest hprev hids

/-- Shared block lemma: one restriction serialized through its own bit
writer occupies whole bytes, and the matching fresh bit reader decodes
it and leaves the source exactly at the following byte. -/
theorem deserializeOne_encode (ids : List Nat) (prev : Nat) (tail : List Nat)
    (hprev : prev < 2 ^ 32) (h2 : 2 ≤ ids.length) (hlen : ids.length ≤ 2 ^ 32 - 1)
    (hids : idsOk prev ids = true) :
    deserializeOneRestriction prev (bitsToBytes (encodeRestrictionBits prev ids) ++ tail)
      = some (some ids, tail) := by
  unfold deserializeOneRestriction
  rw [bytesToBits_append, bytesToBits_bitsToBytes, List.append_assoc]
  rw [decodeRestriction_encode ids prev
    (List.replicate ((8 - (encodeRestrictionBits prev ids).length % 8) % 8) false
      ++ bytesToBits tail) hprev h2 hlen hids]
  simp only []
  rw [scope_drop_block (encodeRestrictionBits prev ids) tail]

theorem deserializeGroup_encode (rs : List Restriction) (ty : RestrictionType) :
    ∀ prev B tail, prev < 2 ^ 32 → encOk prev rs = true →
    serializeGroup ty prev rs = some B →
    RestrictionSerializer.DeserializeSingleType ty rs.length prev (B ++ tail)
      = some (true, rs, tail) := by
  induction rs with
  | nil =>
    intro prev B tail _ _ hser
    simp only [serializeGroup, Option.some.injEq] at hser
    subst hser
    simp [RestrictionSerializer.DeserializeSingleType]
  | cons r t ih =>
    intro prev B tail hprev henc hser
    simp only [serializeGroup] at hser
    by_cases hguard : r.m_type = ty ∧ r.IsValid = true ∧ 1 < r.m_featureIds.length
    case neg =>
      rw [if_neg hguard] at hser
      exact absurd hser (by simp)
    rw [if_pos hguard] at hser
    obtain ⟨hty, hvalid, hsize⟩ := hguard
    cases hrec : serializeGroup ty (r.m_featureIds.headD 0) t with
    | none =>
      rw [hrec] at hser
      exact absurd hser (by simp)
    | some b =>
      rw [hrec] at hser
      simp only [Option.some.injEq] at hser
      subst hser
      simp only [encOk, Bool.and_eq_true, decide_eq_true_eq] at henc
      obtain ⟨⟨hlen, hids⟩, hencT⟩ := henc
      have h2 : 2 ≤ r.m_featureIds.length := hsize
      have hhead : r.m_featureIds.headD 0 < 2 ^ 32 := by
        cases hfi : r.m_featureIds with
        | nil => rw [hfi] at h2; simp at h2
        | cons a u =>
          rw [hfi] at hids
          simp only [idsOk, Bool.and_eq_true, decide_eq_true_eq] at hids
          simpa using hids.1.1
      simp only [List.length_cons, List.append_assoc]
      simp only [RestrictionSerializer.DeserializeSingleType]
      rw [deserializeOne_encode r.m_featureIds prev (b ++ tail) hprev h2 hlen hids]
      simp only []
      rw [ih (r.m_featureIds.headD 0) b tail hhead hencT hrec]
      have hr : (⟨ty, r.m_featureIds⟩ : Restriction) = r := by
        cases r
        simp_all
      rw [hr]

theorem serializeGroup_total (rs : List Restriction) (ty : RestrictionType) :
    ∀ prev, (∀ r ∈ rs, r.m_type = ty ∧ r.IsValid = true ∧ 1 < r.m_featureIds.length) →
    ∃ B, serializeGroup ty prev rs = some B := by
  induction rs with
  | nil =>
    intro prev _
    exact ⟨[], rfl⟩
  | cons r t ih =>
    intro prev h
    obtain ⟨B, hB⟩ := ih (r.m_featureIds.headD 0) (fun x hx => h x (List.mem_cons_of_mem r hx))
    refine ⟨bitsToBytes (encodeRestrictionBits prev r.m_featureIds) ++ B, ?_⟩
    simp only [serializeGroup]
    rw [if_pos (h r (List.mem_cons_self r t)), hB]

theorem sortedRestrictions_cons_cons (a b : Restriction) (l : List Restriction) :
    sortedRestrictions (a :: b :: l) = (!(Restriction.lt b a) && sortedRestrictions (b :: l)) :=
  rfl

theorem sortedRestrictions_tail (a : Restriction) (l : List Restriction)
    (h : sortedRestrictions (a :: l) = true) : sortedRestrictions l = true := by
  cases l with
  | nil => rfl
  | cons b t =>
    rw [sortedRestrictions_cons_cons, Bool.and_eq_true] at h
    exact h.2

theorem sortedRestrictions_append (l1 l2 : List Restriction)
    (h : sortedRestrictions (l1 ++ l2) = true) :
    sortedRestrictions l1 = true ∧ sortedRestrictions l2 = true := by
  induction l1 with
  | nil => exact ⟨rfl, h⟩
  | cons a t ih =>
    cases t with
    | nil =>
      exact ⟨rfl, sortedRestrictions_tail a l2 h⟩
    | cons b t2 =>
      simp only [List.cons_append] at h
      rw [sortedRestrictions_cons_cons, Bool.and_eq_true] at h
      obtain ⟨hab, hrest⟩ := h
      obtain ⟨h1, h2⟩ := ih hrest
      refine ⟨?_, h2⟩
      rw [sortedRestrictions_cons_cons, Bool.and_eq_true]
      exact ⟨hab, h1⟩

theorem serializeSingleType_eq (ty : RestrictionType) (rs : List Restriction)
    (hty : ∀ r ∈ rs, r.m_type = ty) (hsort : sortedRestrictions rs = true) :
    RestrictionSerializer.SerializeSingleType rs = serializeGroup ty 0 rs := by
  cases rs with
  | nil => rfl
  | cons r t =>
    simp only [RestrictionSerializer.SerializeSingleType]
    rw [if_pos hsort, hty r (List.mem_cons_self r t)]

theorem isValid_of (r : Restriction) (h2 : 2 ≤ r.m_featureIds.length)
    (hs : ∀ a ∈ r.m_featureIds, a ≠ kInvalidFeatureId) : r.IsValid = true := by
  unfold Restriction.IsValid
  rw [Bool.and_eq_true, List.all_eq_true]
  exact ⟨decide_eq_true h2, fun a ha => decide_eq_true (hs a ha)⟩

/-! ## Round-trip of the traffic-keys codec -/

theorem length_dropWhile_le {α : Type} (p : α → Bool) (l : List α) :
    (l.dropWhile p).length ≤ l.length := by
  induction l with
  | nil => simp
  | cons a t ih =>
    rw [List.dropWhile_cons]
    split
    · exact le_trans ih (by simp)
    · simp

theorem fidRunsAux_congr :
    ∀ f1 f2 (l : List RoadSegmentId), l.length ≤ f1 → l.length ≤ f2 →
    fidRunsAux f1 l = fidRunsAux f2 l := by
  intro f1
  induction f1 with
  | zero =>
    intro f2 l h1 _
    have : l = [] := List.eq_nil_of_length_eq_zero (by omega)
    subst this
    cases f2 <;> simp [fidRunsAux]
  | succ f ih =>
    intro f2 l h1 h2
    cases l with
    | nil => cases f2 <;> simp [fidRunsAux]
    | cons k rest =>
      obtain ⟨g, rfl⟩ : ∃ m, f2 = m + 1 := ⟨f2 - 1, by simp at h2; omega⟩
      simp only [fidRunsAux, List.cons.injEq, true_and]
      exact ih g (rest.dropWhile (fun x => x.m_fid == k.m_fid))
        (le_trans (length_dropWhile_le _ _) (by simp at h1; omega))
        (le_trans (length_dropWhile_le _ _) (by simp at h2; omega))

theorem fidRuns_cons (k : RoadSegmentId) (rest : List RoadSegmentId) :
    fidRuns (k :: rest) =
      (k :: rest.takeWhile (fun x => x.m_fid == k.m_fid)) ::
        fidRuns (rest.dropWhile (fun x => x.m_fid == k.m_fid)) := by
  simp only [fidRuns, List.length_cons, fidRunsAux, List.cons.injEq, true_and]
  exact fidRunsAux_congr rest.length _ _
    (length_dropWhile_le _ _) (le_refl _)

/-- The runs partition the key list. -/
theorem fidRuns_flatten (keys : List RoadSegmentId) : (fidRuns keys).flatten = keys := by
  have H : ∀ n (l : List RoadSegmentId), l.length ≤ n → (fidRuns l).flatten = l := by
    intro n
    induction n with
    | zero =>
      intro l h
      have : l = [] := List.eq_nil_of_length_eq_zero (by omega)
      subst this
      rfl
    | succ m ih =>
      intro l h
      cases l with
      | nil => rfl
      | cons k rest =>
        rw [fidRuns_cons]
        simp only [List.flatten_cons]
        rw [ih (rest.dropWhile (fun x => x.m_fid == k.m_fid))
          (le_trans (length_dropWhile_le _ _) (by simp at h; omega))]
        simp [List.takeWhile_append_dropWhile]
  exact H keys.length keys (le_refl _)

theorem oneWayGroup_length (fid m : Nat) : (oneWayGroup fid m).length = m := by
  simp [oneWayGroup]

theorem twoWayGroup_length (fid m : Nat) : (twoWayGroup fid m).length = 2 * m := by
  unfold twoWayGroup
  induction m with
  | zero => rfl
  | succ j ih =>
    rw [List.range_succ]
    simp only [List.map_append, List.flatten_append, List.length_append, ih]
    simp
    omega

/-- Destructor for `goodRun`. -/
theorem goodRun_cases (g : List RoadSegmentId) (h : goodRun g = true) :
    ∃ k t, g = k :: t ∧ k.m_fid < 2 ^ 32 ∧
      ((groupOneWay g = true ∧ g.length ≤ 2 ^ 16 ∧ g = oneWayGroup k.m_fid g.length) ∨
       (groupOneWay g = false ∧ g.length / 2 ≤ 2 ^ 16 ∧
         g = twoWayGroup k.m_fid (g.length / 2))) := by
  cases g with
  | nil => simp [goodRun] at h
  | cons k t =>
    by_cases how : groupOneWay (k :: t) = true
    · rw [goodRun, if_pos how] at h
      simp only [Bool.and_eq_true, decide_eq_true_eq] at h
      exact ⟨k, t, rfl, h.1, Or.inl ⟨how, h.2.1, h.2.2⟩⟩
    · rw [goodRun, if_neg how] at h
      simp only [Bool.and_eq_true, decide_eq_true_eq] at h
      exact ⟨k, t, rfl, h.1,
        Or.inr ⟨Bool.not_eq_true _ ▸ Bool.eq_false_iff.mpr (fun hc => how hc), h.2.1, h.2.2⟩⟩

theorem serializeGroups_eq (runs : List (List RoadSegmentId))
    (h : ∀ g ∈ runs, goodRun g = true) :
    serializeGroups runs = some (runs.map (fun g =>
      ((g.headD ⟨0, 0, 0⟩).m_fid, g.length / (if groupOneWay g then 1 else 2),
        groupOneWay g))) := by
  induction runs with
  | nil => rfl
  | cons g rest ih =>
    obtain ⟨k, t, hg, hfid, hcase⟩ := goodRun_cases g (h g (List.mem_cons_self g rest))
    have hdvd : g.length % (if groupOneWay g then 1 else 2) = 0 := by
      rcases hcase with ⟨how, _, _⟩ | ⟨how, _, heq⟩
      · rw [how]
        simp
        omega
      · rw [how]
        have := congrArg List.length heq
        rw [twoWayGroup_length] at this
        simp only [Bool.false_eq_true, if_false]
        omega
    simp only [serializeGroups]
    rw [if_pos hdvd, ih (fun x hx => h x (List.mem_cons_of_mem g hx))]
    simp

theorem readFids_encode (ts : List (Nat × Nat × Bool)) :
    ∀ prev rest, prev < 2 ^ 32 → (∀ t ∈ ts, t.1 < 2 ^ 32) →
    fidDeltasOk prev (ts.map (fun t => t.1)) = true →
    readFids ts.length prev (fidDeltaBits prev ts ++ rest)
      = some (ts.map (fun t => t.1), rest) := by
  induction ts with
  | nil =>
    intro prev rest _ _ _
    simp [fidDeltaBits, readFids]
  | cons t ts ih =>
    intro prev rest hprev hlt hok
    simp only [List.map_cons, fidDeltasOk, Bool.and_eq_true, decide_eq_true_eq] at hok
    obtain ⟨hnz, hok2⟩ := hok
    have hf : t.1 < 2 ^ 32 := hlt t (List.mem_cons_self t ts)
    have hdlt : (t.1 + 2 ^ 32 - prev % 2 ^ 32) % 2 ^ 32 < 2 ^ 32 :=
      Nat.mod_lt _ (by norm_num)
    have hne : (t.1 + 2 ^ 32 - prev % 2 ^ 32) % 2 ^ 32 ≠ 2 ^ 32 - 1 := by
      intro hcontra
      exact hnz (by rw [hcontra]; norm_num)
    have hb : ((t.1 + 2 ^ 32 - prev % 2 ^ 32) % 2 ^ 32 + 1) % 2 ^ 32
        = (t.1 + 2 ^ 32 - prev % 2 ^ 32) % 2 ^ 32 + 1 := Nat.mod_eq_of_lt (by omega)
    simp only [fidDeltaBits, List.length_cons]
    rw [hb, List.append_assoc]
    simp only [readFids]
    rw [gammaDecode_encode ((t.1 + 2 ^ 32 - prev % 2 ^ 32) % 2 ^ 32 + 1) (by omega)
      (fidDeltaBits t.1 ts ++ rest)]
    simp only [Nat.add_sub_cancel]
    have hfid : (prev + (t.1 + 2 ^ 32 - prev % 2 ^ 32) % 2 ^ 32) % 2 ^ 32 = t.1 := by
      omega
    rw [hfid, ih t.1 rest hf (fun x hx => hlt x (List.mem_cons_of_mem t hx)) hok2]
    simp

theorem readSegCounts_encode (ms : List Nat) :
    ∀ rest, readSegCounts ms.length
      ((ms.map (fun m => gammaEncode (m + 1))).flatten ++ rest) = some (ms, rest) := by
  induction ms with
  | nil =>
    intro rest
    simp [readSegCounts]
  | cons m ms ih =>
    intro rest
    simp only [List.map_cons, List.flatten_cons, List.length_cons, List.append_assoc]
    simp only [readSegCounts]
    rw [gammaDecode_encode (m + 1) (by omega) _]
    simp only [Nat.add_sub_cancel]
    rw [ih rest]

theorem readFlags_encode (fs : List Bool) :
    ∀ rest, readFlags fs.length (fs ++ rest) = some (fs, rest) := by
  induction fs with
  | nil =>
    intro rest
    simp [readFlags]
  | cons b fs ih =>
    intro rest
    simp only [List.cons_append, List.length_cons, readFlags, List.append_eq]
    rw [ih rest]

theorem flatten_singleton_map {α β : Type} (l : List α) (f : α → β) :
    (l.map (fun x => [f x])).flatten = l.map f := by
  induction l with
  | nil => rfl
  | cons a t ih => simp [ih]

theorem expand_group_oneWay (fid m : Nat) (hm : m ≤ 2 ^ 16) :
    ((List.range m).map (fun j =>
      (List.range 1).map (fun d => (⟨fid, j % 2 ^ 16, d⟩ : RoadSegmentId)))).flatten
      = oneWayGroup fid m := by
  rw [show List.range 1 = [0] from rfl]
  simp only [List.map_cons, List.map_nil]
  rw [flatten_singleton_map]
  unfold oneWayGroup
  apply List.map_congr_left
  intro j hj
  have : j < m := List.mem_range.mp hj
  rw [Nat.mod_eq_of_lt (by omega)]

theorem expand_group_twoWay (fid m : Nat) (hm : m ≤ 2 ^ 16) :
    ((List.range m).map (fun j =>
      (List.range 2).map (fun d => (⟨fid, j % 2 ^ 16, d⟩ : RoadSegmentId)))).flatten
      = twoWayGroup fid m := by
  rw [show List.range 2 = [0, 1] from rfl]
  unfold twoWayGroup
  congr 1
  apply List.map_congr_left
  intro j hj
  have : j < m := List.mem_range.mp hj
  simp only [List.map_cons, List.map_nil]
  rw [Nat.mod_eq_of_lt (by omega)]

theorem zip_maps {α β γ δ : Type} (l : List α) (f : α → β) (g : α → γ) (h : α → δ) :
    (l.map f).zip ((l.map g).zip (l.map h)) = l.map (fun x => (f x, g x, h x)) := by
  induction l with
  | nil => rfl
  | cons a t ih => simp [ih]

theorem map_triple_eta (ts : List (Nat × Nat × Bool)) :
    ts.map (fun t => (t.1, t.2.1, t.2.2)) = ts := by
  induction ts with
  | nil => rfl
  | cons t rest ih => simp [ih]

theorem expandKeys_runs (runs : List (List RoadSegmentId))
    (h : ∀ g ∈ runs, goodRun g = true) :
    expandKeys (runs.map (fun g =>
      ((g.headD ⟨0, 0, 0⟩).m_fid, g.length / (if groupOneWay g then 1 else 2),
        groupOneWay g))) = runs.flatten := by
  induction runs with
  | nil => rfl
  | cons g rest ih =>
    obtain ⟨k, t, hg, hfid, hcase⟩ := goodRun_cases g (h g (List.mem_cons_self g rest))
    simp only [List.map_cons, expandKeys, List.flatten_cons]
    rw [ih (fun x hx => h x (List.mem_cons_of_mem g hx))]
    congr 1
    have hhead : (g.headD ⟨0, 0, 0⟩).m_fid = k.m_fid := by rw [hg]; rfl
    rcases hcase with ⟨how, hm, heq⟩ | ⟨how, hm, heq⟩
    · rw [hhead, how]
      simp only [eq_self_iff_true, if_true, Nat.div_one]
      rw [expand_group_oneWay k.m_fid g.length hm]
      exact heq.symm
    · rw [hhead, how]
      simp only [Bool.false_eq_true, if_false]
      rw [expand_group_twoWay k.m_fid (g.length / 2) hm]
      exact heq.symm

/-- Shared round-trip of the keys codec, tolerating any trailing bytes
after the serialized frame (the release build never inspects them). -/
theorem keys_roundtrip_gen (K : List RoadSegmentId) (extra : List Nat)
    (hruns : ∀ g ∈ fidRuns K, goodRun g = true)
    (hdeltas : fidDeltasOk 0 (runFids K) = true) :
    ∃ B, TrafficInfo.SerializeTrafficKeys K = some B ∧
      TrafficInfo.DeserializeTrafficKeys (B ++ extra) = TResult.ok K := by
  have hser := serializeGroups_eq (fidRuns K) hruns
  refine ⟨TrafficInfo.kLatestKeysVersion ::
    (WriteVarUint ((fidRuns K).map (fun g =>
      ((g.headD ⟨0, 0, 0⟩).m_fid, g.length / (if groupOneWay g then 1 else 2),
        groupOneWay g))).length ++
      bitsToBytes (keysPayloadBits ((fidRuns K).map (fun g =>
        ((g.headD ⟨0, 0, 0⟩).m_fid, g.length / (if groupOneWay g then 1 else 2),
          groupOneWay g))))), ?_, ?_⟩
  · unfold TrafficInfo.SerializeTrafficKeys
    rw [hser]
  · set ts := (fidRuns K).map (fun g =>
      ((g.headD ⟨0, 0, 0⟩).m_fid, g.length / (if groupOneWay g then 1 else 2),
        groupOneWay g)) with hts
    have hts_fid : ∀ t ∈ ts, t.1 < 2 ^ 32 := by
      intro t ht
      obtain ⟨g, hgmem, rfl⟩ := List.mem_map.mp ht
      obtain ⟨k, t2, hg, hkfid, _⟩ := goodRun_cases g (hruns g hgmem)
      rw [hg]
      simpa using hkfid
    have hdeltas2 : fidDeltasOk 0 (ts.map (fun t => t.1)) = true := by
      rw [show ts.map (fun t => t.1) = runFids K from by
        rw [hts, List.map_map]; rfl]
      exact hdeltas
    have hshape : (TrafficInfo.kLatestKeysVersion ::
        (WriteVarUint ts.length ++ bitsToBytes (keysPayloadBits ts))) ++ extra
        = TrafficInfo.kLatestKeysVersion ::
          (WriteVarUint ts.length ++ (bitsToBytes (keysPayloadBits ts) ++ extra)) := by
      simp [List.append_assoc]
    rw [hshape]
    unfold TrafficInfo.DeserializeTrafficKeys DeserializeTrafficKeysCore
    simp only [if_true]
    rw [ReadVarUint_write ts.length (bitsToBytes (keysPayloadBits ts) ++ extra)]
    simp only []
    rw [bytesToBits_append, bytesToBits_bitsToBytes]
    rw [show keysPayloadBits ts ++
        List.replicate ((8 - (keysPayloadBits ts).length % 8) % 8) false ++ bytesToBits extra
        = fidDeltaBits 0 ts ++
          (((ts.map (fun t => t.2.1)).map (fun m => gammaEncode (m + 1))).flatten ++
            (ts.map (fun t => t.2.2) ++
              (List.replicate ((8 - (keysPayloadBits ts).length % 8) % 8) false ++
                bytesToBits extra))) from by
      rw [List.map_map]
      simp only [keysPayloadBits, List.append_assoc]
      rfl]
    rw [readFids_encode ts 0 _ (by norm_num) hts_fid hdeltas2]
    simp only []
    rw [show ts.length = (ts.map (fun t => t.2.1)).length from by simp]
    rw [readSegCounts_encode (ts.map (fun t => t.2.1)) _]
    simp only []
    rw [show (ts.map (fun t => t.2.1)).length = (ts.map (fun t => t.2.2)).length from by
      simp]
    rw [readFlags_encode (ts.map (fun t => t.2.2)) _]
    simp only []
    rw [zip_maps ts (fun t => t.1) (fun t => t.2.1) (fun t => t.2.2), map_triple_eta]
    rw [hts, expandKeys_runs (fidRuns K) hruns, fidRuns_flatten]

/-! ## Round-trip of the traffic-values codec -/

theorem mod_double (x m : Nat) : x % (2 * m) = x % 2 + 2 * (x / 2 % m) := by
  have h1 : x / 2 / m = x / (2 * m) := Nat.div_div_eq_div_mul x 2 m
  have h2 := Nat.div_add_mod x 2
  have h3 := Nat.div_add_mod (x / 2) m
  have h4 : 2 * (m * (x / (2 * m))) + x % (2 * m) = x := by
    have h0 := Nat.div_add_mod x (2 * m)
    rw [show 2 * m * (x / (2 * m)) = 2 * (m * (x / (2 * m))) from by ring] at h0
    exact h0
  rw [h1] at h3
  omega

theorem byteOfBitsLSB_bitsOfNat (k : Nat) : ∀ x, byteOfBitsLSB (bitsOfNat k x) = x % 2 ^ k := by
  induction k with
  | zero =>
    intro x
    simp [bitsOfNat, byteOfBitsLSB, Nat.mod_one]
  | succ m ih =>
    intro x
    simp only [bitsOfNat, byteOfBitsLSB_cons, ih]
    rw [show (2 : Nat) ^ (m + 1) = 2 * 2 ^ m from by ring, mod_double x (2 ^ m)]
    rcases Nat.mod_two_eq_zero_or_one x with h | h <;> simp [h]

theorem bitsOfNat_three (x : Nat) :
    bitsOfNat 3 x =
      [decide (x % 2 = 1), decide (x / 2 % 2 = 1), decide (x / 2 / 2 % 2 = 1)] := rfl

theorem readValues_encode (vs : List SpeedGroup) :
    ∀ rest, readValues vs.length
      ((vs.map (fun v => bitsOfNat 3 v.val)).flatten ++ rest) = some (vs, rest) := by
  induction vs with
  | nil =>
    intro rest
    simp [readValues]
  | cons v vs ih =>
    intro rest
    simp only [List.map_cons, List.flatten_cons, List.length_cons, List.append_assoc]
    rw [bitsOfNat_three]
    simp only [List.cons_append, readValues, List.append_eq, List.nil_append]
    rw [ih rest]
    simp only []
    have hval : byteOfBitsLSB
        [decide (v.val % 2 = 1), decide (v.val / 2 % 2 = 1), decide (v.val / 2 / 2 % 2 = 1)]
        % 8 = v.val := by
      rw [← bitsOfNat_three, byteOfBitsLSB_bitsOfNat]
      have hlt := v.isLt
      omega
    have hfin : (⟨byteOfBitsLSB [decide (v.val % 2 = 1), decide (v.val / 2 % 2 = 1),
        decide (v.val / 2 / 2 % 2 = 1)] % 8, Nat.mod_lt _ (by decide)⟩ : SpeedGroup) = v :=
      Fin.ext hval
    rw [hfin]

/-- Shared round-trip of the values codec, tolerating trailing bytes
in the inflated stream (the release build never inspects them). -/
theorem values_roundtrip_gen (V : List SpeedGroup) (extra : List Nat) :
    TrafficInfo.DeserializeTrafficValues (TrafficInfo.SerializeTrafficValues V ++ extra)
      = TResult.ok V := by
  unfold TrafficInfo.SerializeTrafficValues TrafficInfo.DeserializeTrafficValues
    ZLib.Deflate ZLib.Inflate
  simp only [List.cons_append, List.append_assoc, if_true]
  rw [ReadVarUint_write V.length (bitsToBytes ((V.map (fun v => bitsOfNat 3 v.val)).flatten)
    ++ extra)]
  simp only []
  rw [bytesToBits_append, bytesToBits_bitsToBytes, List.append_assoc]
  rw [readValues_encode V _]

/-! ## Characterization of CombineColorings -/

theorem lookup_insert (m : Coloring) (k k2 : RoadSegmentId) (v : SpeedGroup) :
    lookupColoring (insertColoring m k v) k2
      = if k = k2 then some v else lookupColoring m k2 := by
  induction m with
  | nil =>
    simp [insertColoring, lookupColoring]
  | cons p rest ih =>
    obtain ⟨k0, v0⟩ := p
    simp only [insertColoring]
    by_cases h0 : k0 = k
    · subst h0
      rw [if_pos rfl]
      by_cases h2 : k0 = k2
      · subst h2
        simp [lookupColoring]
      · simp [lookupColoring, h2]
    · rw [if_neg h0]
      by_cases h2 : k0 = k2
      · subst h2
        have hk : ¬ k = k0 := fun hc => h0 hc.symm
        simp [lookupColoring, hk]
      · simp [lookupColoring, h2, ih]

theorem combine_fold_lookup (keys : List RoadSegmentId) (known : Coloring) :
    ∀ (init : Coloring × Nat) (k : RoadSegmentId),
    lookupColoring (keys.foldl
      (fun acc key =>
        match lookupColoring known key with
        | none => (insertColoring acc.1 key SpeedGroup.Unknown, acc.2)
        | some v => (insertColoring acc.1 key v, dec64 acc.2)) init).1 k
      = if k ∈ keys then some ((lookupColoring known k).getD SpeedGroup.Unknown)
        else lookupColoring init.1 k := by
  induction keys with
  | nil =>
    intro init k
    simp
  | cons key keys ih =>
    intro init k
    rw [List.foldl_cons, ih]
    by_cases hk : k ∈ keys
    · rw [if_pos hk, if_pos (List.mem_cons_of_mem key hk)]
    · rw [if_neg hk]
      by_cases he : key = k
      · subst he
        rw [if_pos (List.mem_cons_self key keys)]
        cases hl : lookupColoring known key with
        | none => simp [lookup_insert, hl]
        | some v => simp [lookup_insert, hl]
      · have hmem : ¬ k ∈ key :: keys := by
          intro hc
          rcases List.mem_cons.mp hc with hc1 | hc2
          · exact he hc1.symm
          · exact hk hc2
        rw [if_neg hmem]
        cases hl : lookupColoring known key with
        | none => simp [lookup_insert, he]
        | some v => simp [lookup_insert, he]

/-! ## Claim theorems -/

/-- Claim C1, counterexample to the claim as stated: the single-element
restriction vector `[(No, [0, 2^31])]` is sorted, partitioned and has
two feature ids, yet the round trip fails.  The wrapped signed delta
of its second id is `−2^31`, whose zig-zag code is `2^32 − 1`; the
`uint32_t` bias `delta + 1` wraps to `0`, which the Elias coder cannot
emit, so the serializer silently writes nothing for that link and the
deserializer runs off the end of the stream. -/
theorem c1_counterexample :
    sortedRestrictions [⟨RestrictionType.No, [0, 2 ^ 31]⟩] = true ∧
    RestrictionSerializer.Serialize [⟨RestrictionType.No, [0, 2 ^ 31]⟩] [] = some [3] ∧
    RestrictionSerializer.Deserialize ⟨0, 0, 1, 0⟩ [3] = none := by
  refine ⟨by decide, by decide, by decide⟩

/-- Claim C1 (amended): for every sorted-and-partitioned restriction
vector — all `No` before all `Only` — in which every restriction has
at least 2 and at most `2^32 − 1` feature ids, no id is the sentinel
`2^32 − 1`, and no wrapped signed delta equals `−2^31` (the `encOk`
side conditions), deserializing the serialized bytes with the matching
header counts returns exactly the input vector, `No` entries first. -/
theorem c1_restriction_roundtrip
    (noPart onlyPart : List Restriction)
    (hsorted : sortedRestrictions (noPart ++ onlyPart) = true)
    (hNo : ∀ r ∈ noPart, r.m_type = RestrictionType.No)
    (hOnly : ∀ r ∈ onlyPart, r.m_type = RestrictionType.Only)
    (hlinks : ∀ r ∈ noPart ++ onlyPart, 2 ≤ r.m_featureIds.length)
    (hsent : ∀ r ∈ noPart ++ onlyPart, ∀ a ∈ r.m_featureIds, a ≠ kInvalidFeatureId)
    (hencNo : encOk 0 noPart = true) (hencOnly : encOk 0 onlyPart = true) :
    (RestrictionSerializer.Serialize noPart onlyPart).bind
      (fun bytes => RestrictionSerializer.Deserialize
        ⟨0, 0, noPart.length, onlyPart.length⟩ bytes)
      = some (noPart ++ onlyPart) := by
  obtain ⟨hsortNo, hsortOnly⟩ := sortedRestrictions_append noPart onlyPart hsorted
  have hvNo : ∀ r ∈ noPart,
      r.m_type = RestrictionType.No ∧ r.IsValid = true ∧ 1 < r.m_featureIds.length := by
    intro r hr
    exact ⟨hNo r hr,
      isValid_of r (hlinks r (List.mem_append_left _ hr)) (hsent r (List.mem_append_left _ hr)),
      hlinks r (List.mem_append_left _ hr)⟩
  have hvOnly : ∀ r ∈ onlyPart,
      r.m_type = RestrictionType.Only ∧ r.IsValid = true ∧ 1 < r.m_featureIds.length := by
    intro r hr
    exact ⟨hOnly r hr,
      isValid_of r (hlinks r (List.mem_append_right _ hr)) (hsent r (List.mem_append_right _ hr)),
      hlinks r (List.mem_append_right _ hr)⟩
  obtain ⟨B1, hB1⟩ := serializeGroup_total noPart RestrictionType.No 0 hvNo
  obtain ⟨B2, hB2⟩ := serializeGroup_total onlyPart RestrictionType.Only 0 hvOnly
  have hs1 : RestrictionSerializer.SerializeSingleType noPart = some B1 := by
    rw [serializeSingleType_eq RestrictionType.No noPart hNo hsortNo]
    exact hB1
  have hs2 : RestrictionSerializer.SerializeSingleType onlyPart = some B2 := by
    rw [serializeSingleType_eq RestrictionType.Only onlyPart hOnly hsortOnly]
    exact hB2
  unfold RestrictionSerializer.Serialize
  rw [hs1, hs2]
  simp only [Option.some_bind]
  unfold RestrictionSerializer.Deserialize
  simp only []
  rw [deserializeGroup_encode noPart RestrictionType.No 0 B1 B2 (by norm_num) hencNo hB1]
  simp only []
  have hd2 := deserializeGroup_encode onlyPart RestrictionType.Only 0 B2 [] (by norm_num)
    hencOnly hB2
  rw [List.append_nil] at hd2
  rw [hd2]

/-- Claim C1, witness: the amended round trip at the concrete scenario
S1 of the spec. -/
theorem c1_restriction_roundtrip_witness :
    (RestrictionSerializer.Serialize
      [⟨RestrictionType.No, [10, 11]⟩, ⟨RestrictionType.No, [10, 12, 13]⟩]
      [⟨RestrictionType.Only, [5, 6]⟩]).bind
      (fun bytes => RestrictionSerializer.Deserialize ⟨0, 0, 2, 1⟩ bytes)
      = some [⟨RestrictionType.No, [10, 11]⟩, ⟨RestrictionType.No, [10, 12, 13]⟩,
              ⟨RestrictionType.Only, [5, 6]⟩] :=
  c1_restriction_roundtrip
    [⟨RestrictionType.No, [10, 11]⟩, ⟨RestrictionType.No, [10, 12, 13]⟩]
    [⟨RestrictionType.Only, [5, 6]⟩]
    (by decide) (by decide) (by decide) (by decide) (by decide) (by decide) (by decide)

/-- Claim C2, counterexample to the claim as stated: `[(fid 0, idx 1,
dir 0)]` is sorted, its single fid-group is contiguous with all
`dir = 0`, yet the round trip returns `[(0, 0, 0)]`: the codec stores
only the segment count per group and re-expands indices from `0`, so a
group whose indices do not start at `0` is not reproduced. -/
theorem c2_counterexample :
    sortedKeys [⟨0, 1, 0⟩] = true ∧
    groupOneWay [(⟨0, 1, 0⟩ : RoadSegmentId)] = true ∧
    TrafficInfo.SerializeTrafficKeys [⟨0, 1, 0⟩] = some [0, 1, 21] ∧
    TrafficInfo.DeserializeTrafficKeys [0, 1, 21] = TResult.ok [⟨0, 0, 0⟩] ∧
    (⟨0, 0, 0⟩ : RoadSegmentId) ≠ ⟨0, 1, 0⟩ := by
  refine ⟨by decide, by decide, by decide, by decide, by decide⟩

/-- Claim C2 (amended): for every sorted key vector whose fid-runs are
canonical — segment indices exactly `0 .. m−1` (with `m` fitting
`uint16_t` and the fid fitting `uint32_t`), one-way or with both
directions in the pattern `(idx,0),(idx,1),…` — and in which no biased
fid delta wraps to `0`, the round trip reproduces the vector; the
decoded vector is in particular sorted. -/
theorem c2_keys_roundtrip (K : List RoadSegmentId)
    (hsorted : sortedKeys K = true)
    (hruns : ∀ g ∈ fidRuns K, goodRun g = true)
    (hdeltas : fidDeltasOk 0 (runFids K) = true) :
    ∃ B, TrafficInfo.SerializeTrafficKeys K = some B ∧
      TrafficInfo.DeserializeTrafficKeys B = TResult.ok K ∧ sortedKeys K = true := by
  obtain ⟨B, h1, h2⟩ := keys_roundtrip_gen K [] hruns hdeltas
  rw [List.append_nil] at h2
  exact ⟨B, h1, h2, hsorted⟩

/-- Claim C2, witness: the amended round trip at the concrete scenario
S3 of the spec. -/
theorem c2_keys_roundtrip_witness :
    ∃ B, TrafficInfo.SerializeTrafficKeys
        [⟨1, 0, 0⟩, ⟨1, 0, 1⟩, ⟨1, 1, 0⟩, ⟨1, 1, 1⟩, ⟨2, 0, 0⟩, ⟨2, 1, 0⟩] = some B ∧
      TrafficInfo.DeserializeTrafficKeys B
        = TResult.ok [⟨1, 0, 0⟩, ⟨1, 0, 1⟩, ⟨1, 1, 0⟩, ⟨1, 1, 1⟩, ⟨2, 0, 0⟩, ⟨2, 1, 0⟩] ∧
      sortedKeys [(⟨1, 0, 0⟩ : RoadSegmentId), ⟨1, 0, 1⟩, ⟨1, 1, 0⟩, ⟨1, 1, 1⟩,
        ⟨2, 0, 0⟩, ⟨2, 1, 0⟩] = true :=
  c2_keys_roundtrip [⟨1, 0, 0⟩, ⟨1, 0, 1⟩, ⟨1, 1, 0⟩, ⟨1, 1, 1⟩, ⟨2, 0, 0⟩, ⟨2, 1, 0⟩]
    (by decide) (by decide) (by decide)

/-- Claim C3: for every vector of `SpeedGroup` values (3-bit values by
construction of the type), deserializing the serialized bytes —
version byte 0, varint count, 3-bit codewords, zero padding, deflate —
returns exactly the input vector. -/
theorem c3_values_roundtrip (V : List SpeedGroup) :
    TrafficInfo.DeserializeTrafficValues (TrafficInfo.SerializeTrafficValues V)
      = TResult.ok V := by
  have h := values_roundtrip_gen V []
  rwa [List.append_nil] at h

/-- Claim C4: on the crafted payload whose Elias-delta codeword decodes
to `2^32` (so that the `uint32_t` biased link count is `0`), the
per-group decoder `DeserializeSingleType` does fail — it returns
`false` — but the top-level `Deserialize`, being `void`, discards that
result and completes normally with an empty vector: the error never
reaches the caller.  The bytes `[32, 4, 0, 0, 0, 0]` are the packed
form of the delta codeword of `2^32`. -/
theorem c4_corruption_swallowed :
    bitsToBytes (deltaEncode (2 ^ 32)) = [32, 4, 0, 0, 0, 0] ∧
    RestrictionSerializer.DeserializeSingleType RestrictionType.No 1 0 [32, 4, 0, 0, 0, 0]
      = some (false, [], []) ∧
    RestrictionSerializer.Deserialize ⟨0, 0, 1, 0⟩ [32, 4, 0, 0, 0, 0] = some [] := by
  refine ⟨by decide, by decide, by decide⟩

/-- Claim C5: the routing header serializes to exactly 12 bytes —
`uint16_t` version, `uint16_t` reserved, `uint32_t` `No` count,
`uint32_t` `Only` count, little-endian in that order — and
deserializing them (with any continuation) returns the same header. -/
theorem c5_header_layout (h : RoutingHeader) (rest : List Nat)
    (h1 : h.m_version < 2 ^ 16) (h2 : h.m_reserved < 2 ^ 16)
    (h3 : h.m_noRestrictionCount < 2 ^ 32) (h4 : h.m_onlyRestrictionCount < 2 ^ 32) :
    (RoutingHeader.Serialize h).length = 12 ∧
    RoutingHeader.Deserialize (RoutingHeader.Serialize h ++ rest) = some (h, rest) := by
  obtain ⟨v, r, nc, oc⟩ := h
  constructor
  · rfl
  · simp only [RoutingHeader.Serialize, writeU16LE, writeU32LE, List.cons_append,
      List.nil_append, RoutingHeader.Deserialize]
    simp only [Option.some.injEq, Prod.mk.injEq, RoutingHeader.mk.injEq]
    refine ⟨⟨?_, ?_, ?_, ?_⟩, trivial⟩ <;> simp only [] at h1 h2 h3 h4 <;> omega

/-- Claim C5, witness: the header of scenario S1. -/
theorem c5_header_layout_witness :
    (RoutingHeader.Serialize ⟨0, 0, 2, 1⟩).length = 12 ∧
    RoutingHeader.Deserialize (RoutingHeader.Serialize ⟨0, 0, 2, 1⟩ ++ []) =
      some (⟨0, 0, 2, 1⟩, []) :=
  c5_header_layout ⟨0, 0, 2, 1⟩ [] (by decide) (by decide) (by decide) (by decide)

/-- Claim C6: a keys blob whose first byte is not the supported version
0, and a values blob whose first inflated byte is not 0, are rejected
with `UnsupportedVersion` (the always-on `CHECK_EQUAL` on the version
byte) and no decoded vector is produced. -/
theorem c6_version_rejected :
    (∀ v rest, v ≠ TrafficInfo.kLatestKeysVersion →
      TrafficInfo.DeserializeTrafficKeys (v :: rest)
        = TResult.error TrafficError.unsupportedVersion) ∧
    (∀ (data : List Nat) v rest, ZLib.Inflate data = v :: rest →
      v ≠ TrafficInfo.kLatestValuesVersion →
      TrafficInfo.DeserializeTrafficValues data
        = TResult.error TrafficError.unsupportedVersion) := by
  constructor
  · intro v rest hv
    unfold TrafficInfo.DeserializeTrafficKeys DeserializeTrafficKeysCore
    simp only [if_neg hv]
  · intro data v rest hinf hv
    unfold TrafficInfo.DeserializeTrafficValues
    rw [hinf]
    simp only [if_neg hv]

/-- Claim C6, witness: version byte 1 is rejected on both paths. -/
theorem c6_version_rejected_witness :
    TrafficInfo.DeserializeTrafficKeys [1]
      = TResult.error TrafficError.unsupportedVersion ∧
    TrafficInfo.DeserializeTrafficValues [1]
      = TResult.error TrafficError.unsupportedVersion :=
  ⟨c6_version_rejected.1 1 [] (by decide),
   c6_version_rejected.2 [1] 1 [] rfl (by decide)⟩

/-- Claim C7, counterexample to the claim as stated: a keys blob and a
values blob each carrying one byte beyond their payload are accepted —
the decode succeeds instead of failing — because the exhaustion check
`ASSERT_EQUAL(src.Size(), 0, ())` is compiled only in debug builds.
The core decoder confirms the leftover byte `[0]` is indeed
unconsumed. -/
theorem c7_counterexample :
    DeserializeTrafficKeysCore [0, 1, 21, 0] = TResult.ok ([⟨0, 0, 0⟩], [0]) ∧
    TrafficInfo.DeserializeTrafficKeys [0, 1, 21, 0] = TResult.ok [⟨0, 0, 0⟩] ∧
    TrafficInfo.DeserializeTrafficValues [0, 0, 0] = TResult.ok [] := by
  refine ⟨by decide, by decide, by decide⟩

/-- Claim C7 (amended): in the release build the trailing-bytes checks
are absent, so both traffic decoders accept any bytes appended after a
well-formed frame and return the content of the frame unchanged; debug
builds would additionally halt on the assert. -/
theorem c7_trailing_bytes_accepted :
    (∀ K extra, (∀ g ∈ fidRuns K, goodRun g = true) →
      fidDeltasOk 0 (runFids K) = true →
      ∃ B, TrafficInfo.SerializeTrafficKeys K = some B ∧
        TrafficInfo.DeserializeTrafficKeys (B ++ extra) = TResult.ok K) ∧
    (∀ V extra, TrafficInfo.DeserializeTrafficValues
        (TrafficInfo.SerializeTrafficValues V ++ extra) = TResult.ok V) :=
  ⟨fun K extra h1 h2 => keys_roundtrip_gen K extra h1 h2,
   fun V extra => values_roundtrip_gen V extra⟩

/-- Claim C7, witness: a one-key frame with a trailing byte and a
one-value frame with a trailing byte both decode to their content. -/
theorem c7_trailing_bytes_accepted_witness :
    (∃ B, TrafficInfo.SerializeTrafficKeys [⟨1, 0, 0⟩] = some B ∧
      TrafficInfo.DeserializeTrafficKeys (B ++ [7]) = TResult.ok [⟨1, 0, 0⟩]) ∧
    TrafficInfo.DeserializeTrafficValues
      (TrafficInfo.SerializeTrafficValues [3] ++ [9]) = TResult.ok [3] :=
  ⟨c7_trailing_bytes_accepted.1 [⟨1, 0, 0⟩] [7] (by decide) (by decide),
   c7_trailing_bytes_accepted.2 [3] [9]⟩

/-- Claim C8, counterexample to the claim as stated: the sorted group
`[(0,0,1), (0,1,1)]` contains reverse-direction entries, has 2 entries
but 2 distinct segment indices (so the claimed requirement
`2 × num_segs = 4` entries is violated), yet serialization succeeds —
the code only checks that the entry count is divisible by the
direction count, never that it matches the distinct indices. -/
theorem c8_counterexample :
    sortedKeys [⟨0, 0, 1⟩, ⟨0, 1, 1⟩] = true ∧
    groupOneWay [(⟨0, 0, 1⟩ : RoadSegmentId), ⟨0, 1, 1⟩] = false ∧
    (([(⟨0, 0, 1⟩ : RoadSegmentId), ⟨0, 1, 1⟩].map RoadSegmentId.m_idx).dedup.length = 2) ∧
    (TrafficInfo.SerializeTrafficKeys [⟨0, 0, 1⟩, ⟨0, 1, 1⟩]).isSome = true := by
  refine ⟨by decide, by decide, by decide, by decide⟩

theorem serializeGroups_none_iff (runs : List (List RoadSegmentId)) :
    serializeGroups runs = none ↔
      ∃ g ∈ runs, groupOneWay g = false ∧ g.length % 2 = 1 := by
  induction runs with
  | nil => simp [serializeGroups]
  | cons g rest ih =>
    simp only [serializeGroups]
    by_cases hc : g.length % (if groupOneWay g then 1 else 2) = 0
    · rw [if_pos hc]
      cases hr : serializeGroups rest with
      | none =>
        simp only [true_iff]
        obtain ⟨g2, hg2, hbad⟩ := ih.mp hr
        exact ⟨g2, List.mem_cons_of_mem g hg2, hbad⟩
      | some ts =>
        simp only []
        constructor
        · intro hcontra
          exact absurd hcontra (by simp)
        · rintro ⟨g2, hg2, hbad⟩
          rcases List.mem_cons.mp hg2 with rfl | hg2r
          · exfalso
            obtain ⟨how, hodd⟩ := hbad
            rw [how] at hc
            simp only [Bool.false_eq_true, if_false] at hc
            omega
          · have hnone := ih.mpr ⟨g2, hg2r, hbad⟩
            rw [hr] at hnone
            exact absurd hnone (by simp)
    · rw [if_neg hc]
      simp only [true_iff]
      by_cases how : groupOneWay g = true
      · exfalso
        apply hc
        rw [how]
        simp
        omega
      · have howf : groupOneWay g = false := Bool.eq_false_iff.mpr how
        have hodd : g.length % 2 = 1 := by
          rw [howf] at hc
          simp only [Bool.false_eq_true, if_false] at hc
          omega
        exact ⟨g, List.mem_cons_self g rest, howf, hodd⟩

/-- Claim C8 (amended): key serialization fails (by the always-on
`CHECK_EQUAL`, which stops the program before any frame is emitted)
exactly when some fid-group contains a reverse-direction entry and has
an odd entry count; the entry count is never compared against the
number of distinct segment indices, so any even-sized two-way group is
serialized, whatever its indices. -/
theorem c8_validation_divisibility_only (K : List RoadSegmentId) :
    TrafficInfo.SerializeTrafficKeys K = none ↔
      ∃ g ∈ fidRuns K, groupOneWay g = false ∧ g.length % 2 = 1 := by
  rw [← serializeGroups_none_iff (fidRuns K)]
  unfold TrafficInfo.SerializeTrafficKeys
  cases h : serializeGroups (fidRuns K) <;> simp

/-- Claim C9, counterexample to the claim as stated: with an empty key
list and a known map holding one binding, the known key does not
appear in the key list, yet `CombineColorings` completes normally
returning the empty coloring (and the nonzero `numUnexpectedKeys` that
only a debug-build assert would inspect) — no error is reported to the
caller. -/
theorem c9_counterexample :
    CombineColorings [] [(⟨0, 0, 0⟩, SpeedGroup.Unknown)] = ([], 1) := by decide

/-- Claim C9 (amended): the result of `CombineColorings` maps every
key of the key list to its known color when present and to
`SpeedGroup::Unknown` otherwise, and its domain is exactly the set of
keys of the list; keys of the known map absent from the key list are
silently ignored in the release build (the unexpected-keys check is a
debug-only assert). -/
theorem c9_combine_characterization (keys : List RoadSegmentId) (known : Coloring)
    (k : RoadSegmentId) :
    lookupColoring (CombineColorings keys known).1 k
      = (if k ∈ keys then some ((lookupColoring known k).getD SpeedGroup.Unknown)
         else none) ∧
    ((lookupColoring (CombineColorings keys known).1 k).isSome = true ↔ k ∈ keys) := by
  have h := combine_fold_lookup keys known ([], known.length) k
  constructor
  · rw [CombineColorings, h]
    rfl
  · rw [CombineColorings, h]
    by_cases hk : k ∈ keys
    · simp [hk]
    · simp [hk, lookupColoring]

/-- Claim C10: the codeword stream of every restriction starts at a byte
boundary: the serializer packs each restriction through its own bit
writer (zero-padding the final partial byte of that restriction), and
the matching fresh bit reader decodes the restriction and leaves the
byte source exactly at the following byte — so alignment holds between
every pair of consecutive restrictions, whatever bytes follow. -/
theorem c10_per_restriction_alignment (prev : Nat) (ids : List Nat) (tail : List Nat)
    (hprev : prev < 2 ^ 32) (h2 : 2 ≤ ids.length) (hlen : ids.length ≤ 2 ^ 32 - 1)
    (hids : idsOk prev ids = true) :
    deserializeOneRestriction prev (bitsToBytes (encodeRestrictionBits prev ids) ++ tail)
      = some (some ids, tail) :=
  deserializeOne_encode ids prev tail hprev h2 hlen hids

/-- Claim C10, witness: a two-link restriction followed by an
arbitrary unrelated byte. -/
theorem c10_per_restriction_alignment_witness :
    deserializeOneRestriction 0 (bitsToBytes (encodeRestrictionBits 0 [10, 11]) ++ [99])
      = some (some [10, 11], [99]) :=
  c10_per_restriction_alignment 0 [10, 11] [99] (by decide) (by decide) (by decide) (by decide)
